import Mathlib

/-!
# Circular-buffer deque of `container/deque/deque.go`

A shallow embedding of the Go type `Deque` and of its methods.

* A Go value of type `interface{}` is an `Option α`; `none` is Go's `nil`.
* The slice `data` is a `List (Option α)`; `Capacity()` is its length.
* `begin`, `end`, `size` and every position argument are Go `int`s and are modelled
  by `Int`.  The field `end` is called `end_` because `end` is reserved in Lean.
* A run-time panic (index out of range, integer division by zero, `make` with a
  negative length) is the outer `none` of the `Option` every operation returns.
* Go's `%` truncates toward zero: it is `Int.tmod`, and panics on a zero divisor.
* The only arithmetic on a caller-supplied, unguarded integer is `pos+1` in `Erase`;
  it wraps around at 64 bits (`wrapInt`).  Every other sum or product is taken on
  values bounded by twice the slice length and is modelled without wrap-around.
* `int(float64(size*2)*1.2)` is evaluated as IEEE-754 binary64 arithmetic with
  round-to-nearest-even (`roundTo53`, `shrinkThreshold`).
-/

namespace GoDeque

/-- The Go error value returned by `Insert`, `Erase` and `EraseRange`. -/
inductive GoError where
  | nil
  | ErrOutOffRange
  deriving DecidableEq

/-- The struct `Deque` of deque.go: `data`, `begin`, `end`, `size`. -/
structure Deque (α : Type) where
  data : List (Option α)
  begin : Int
  end_ : Int
  size : Int
  deriving DecidableEq

variable {α : Type}

/-- Go `a % b` on `int`: truncated remainder, run-time panic when `b = 0`. -/
def goMod (a b : Int) : Option Int :=
  if b = 0 then none else some (Int.tmod a b)

/-- Two's-complement wrap-around of a 64-bit Go `int`. -/
def wrapInt (x : Int) : Int :=
  (x + 2 ^ 63) % 2 ^ 64 - 2 ^ 63

/-- Slice read `data[i]`: panics unless `0 ≤ i < len(data)`. -/
def getSlot (data : List (Option α)) (i : Int) : Option (Option α) :=
  if 0 ≤ i then data[i.toNat]? else none

/-- Slice write `data[i] = v`: panics unless `0 ≤ i < len(data)`. -/
def setSlot (data : List (Option α)) (i : Int) (v : Option α) : Option (List (Option α)) :=
  if 0 ≤ i ∧ i < (data.length : Int) then some (data.set i.toNat v) else none

/-- The call `make([]interface{}, n, n)`: panics on a negative length. -/
def makeSlice (n : Int) : Option (List (Option α)) :=
  if n < 0 then none else some (List.replicate n.toNat none)

/-- Constructor `New(capacity)`. -/
def New (capacity : Int) : Option (Deque α) :=
  let capacity := if capacity = 0 then 1 else capacity
  (makeSlice capacity).map fun data =>
    { data := data, begin := 0, end_ := 0, size := 0 }

/-- Method `Size()`. -/
def Deque.Size (d : Deque α) : Int := d.size

/-- Method `Capacity()`: `len(this.data)`. -/
def Deque.Capacity (d : Deque α) : Int := (d.data.length : Int)

/-- Method `Empty()`. -/
def Deque.Empty (d : Deque α) : Bool := d.Size == 0

/-- Method `nextIndex(index)`: `(index + 1) % Capacity()`. -/
def Deque.nextIndex (d : Deque α) (index : Int) : Option Int :=
  goMod (index + 1) d.Capacity

/-- Method `preIndex(index)`: `(index - 1 + Capacity()) % Capacity()`. -/
def Deque.preIndex (d : Deque α) (index : Int) : Option Int :=
  goMod (index - 1 + d.Capacity) d.Capacity

/-- Number of low bits that have to be dropped from `n` to leave at most 53
significant bits; the first argument bounds the recursion. -/
def excessBits : Nat → Nat → Nat
  | 0, _ => 0
  | fuel + 1, n => if n < 2 ^ 53 then 0 else excessBits fuel (n / 2) + 1

/-- Rounding of a natural number to 53 significant bits, ties to even: the
binary64 rounding of a non-negative real that is a natural multiple of a fixed
power of two. -/
def roundTo53 (n : Nat) : Nat :=
  let sh := excessBits n n
  if sh = 0 then n
  else
    let q := n / 2 ^ sh
    let r := n % 2 ^ sh
    let half := 2 ^ (sh - 1)
    (if half < r ∨ (r = half ∧ q % 2 = 1) then q + 1 else q) * 2 ^ sh

/-- The binary64 constant `1.2` is `float12Mantissa / 2^52`. -/
def float12Mantissa : Nat := 5404319552844595

/-- Value of `int(float64(n) * 1.2)` for a natural `n`: conversion to binary64, one
rounded multiplication, truncation. -/
def truncMul12Nat (n : Nat) : Nat :=
  roundTo53 (roundTo53 n * float12Mantissa) / 2 ^ 52

/-- Value of `int(float64(n) * 1.2)` for an `int` `n` (binary64 rounding and the
truncation are symmetric in the sign). -/
def truncMul12 (n : Int) : Int :=
  if n < 0 then -(truncMul12Nat n.natAbs : Int) else (truncMul12Nat n.toNat : Int)

/-- The left side of the test in `shrinkIfNeeded`: `int(float64(size*2)*1.2)`. -/
def Deque.shrinkThreshold (d : Deque α) : Int := truncMul12 (d.size * 2)

/-- The copy loop shared by `expandIfNeeded` and `shrinkIfNeeded`:
`for i < size { data[i] = this.data[(this.begin+i) % this.Capacity()] }`.
The first argument is the number of iterations left, `i` the loop counter. -/
def Deque.copyLoop (d : Deque α) : Nat → Int → List (Option α) → Option (List (Option α))
  | 0, _, data => some data
  | k + 1, i, data => do
    let p ← goMod (d.begin + i) d.Capacity
    let v ← getSlot d.data p
    let data ← setSlot data i v
    d.copyLoop k (i + 1) data

/-- Method `expandIfNeeded()`. -/
def Deque.expandIfNeeded (d : Deque α) : Option (Deque α) :=
  if d.size = d.Capacity then do
    let newCapacity := if d.size * 2 = 0 then 1 else d.size * 2
    let data ← makeSlice newCapacity
    let data ← d.copyLoop d.size.toNat 0 data
    some { data := data, begin := 0, end_ := d.size, size := d.size }
  else some d

/-- Method `shrinkIfNeeded()`. -/
def Deque.shrinkIfNeeded (d : Deque α) : Option (Deque α) :=
  if d.shrinkThreshold < d.Capacity then do
    let newCapacity := Int.tdiv d.Capacity 2
    let data ← makeSlice newCapacity
    let data ← d.copyLoop d.size.toNat 0 data
    some { data := data, begin := 0, end_ := d.size, size := d.size }
  else some d

/-- Method `PushBack(value)`. -/
def Deque.PushBack (d : Deque α) (value : Option α) : Option (Deque α) := do
  let d ← d.expandIfNeeded
  let data ← setSlot d.data d.end_ value
  let d := { d with data := data }
  let e ← d.nextIndex d.end_
  some { d with end_ := e, size := d.size + 1 }

/-- Method `PushFront(value)`. -/
def Deque.PushFront (d : Deque α) (value : Option α) : Option (Deque α) := do
  let d ← d.expandIfNeeded
  let b ← d.preIndex d.begin
  let d := { d with begin := b }
  let data ← setSlot d.data d.begin value
  some { d with data := data, size := d.size + 1 }

/-- The first loop of `Insert`, `for i < pos`:
`data[idx] = data[nextIndex(idx)]; idx = nextIndex(idx)`. -/
def Deque.insertFrontLoop : Nat → Deque α → Int → Option (Deque α × Int)
  | 0, d, idx => some (d, idx)
  | k + 1, d, idx => do
    let n ← d.nextIndex idx
    let v ← getSlot d.data n
    let data ← setSlot d.data idx v
    let d := { d with data := data }
    let idx ← d.nextIndex idx
    insertFrontLoop k d idx

/-- The second loop of `Insert`, `for i < size-pos`:
`data[idx] = data[preIndex(idx)]; idx = preIndex(idx)`. -/
def Deque.insertBackLoop : Nat → Deque α → Int → Option (Deque α × Int)
  | 0, d, idx => some (d, idx)
  | k + 1, d, idx => do
    let p ← d.preIndex idx
    let v ← getSlot d.data p
    let data ← setSlot d.data idx v
    let d := { d with data := data }
    let idx ← d.preIndex idx
    insertBackLoop k d idx

/-- Method `Insert(pos, value)`: the deque after the call and the returned error. -/
def Deque.Insert (d : Deque α) (pos : Int) (value : Option α) :
    Option (Deque α × GoError) :=
  if pos < 0 ∨ pos > d.size then some (d, GoError.ErrOutOffRange)
  else if pos = 0 then (d.PushFront value).map fun d => (d, GoError.nil)
  else if pos = d.size then (d.PushBack value).map fun d => (d, GoError.nil)
  else do
    let d ← d.expandIfNeeded
    if pos < d.size - pos then do
      let idx ← d.preIndex d.begin
      let (d, idx) ← Deque.insertFrontLoop pos.toNat d idx
      let data ← setSlot d.data idx value
      let d := { d with data := data }
      let b ← d.preIndex d.begin
      some ({ d with begin := b, size := d.size + 1 }, GoError.nil)
    else do
      let idx := d.end_
      let (d, idx) ← Deque.insertBackLoop (d.size - pos).toNat d idx
      let data ← setSlot d.data idx value
      let d := { d with data := data }
      let e ← d.nextIndex d.end_
      some ({ d with end_ := e, size := d.size + 1 }, GoError.nil)

/-- Method `PopBack()`: the deque after the call and the returned value. -/
def Deque.PopBack (d : Deque α) : Option (Deque α × Option α) :=
  if d.Empty then some (d, none)
  else do
    let index ← d.preIndex d.end_
    let val ← getSlot d.data index
    let data ← setSlot d.data index none
    let d := { d with data := data, size := d.size - 1 }
    let d ← d.shrinkIfNeeded
    some (d, val)

/-- Method `PopFront()`: the deque after the call and the returned value. -/
def Deque.PopFront (d : Deque α) : Option (Deque α × Option α) :=
  if d.Empty then some (d, none)
  else do
    let val ← getSlot d.data d.begin
    let data ← setSlot d.data d.begin none
    let d := { d with data := data }
    let b ← d.nextIndex d.begin
    let d := { d with begin := b, size := d.size - 1 }
    let d ← d.shrinkIfNeeded
    some (d, val)

/-- Method `At(pos)`. -/
def Deque.At (d : Deque α) (pos : Int) : Option (Option α) :=
  if pos < 0 ∨ pos ≥ d.size then some none
  else do
    let p ← goMod (pos + d.begin) d.Capacity
    getSlot d.data p

/-- Method `Back()`. -/
def Deque.Back (d : Deque α) : Option (Option α) := d.At (d.size - 1)

/-- Method `Front()`. -/
def Deque.Front (d : Deque α) : Option (Option α) := d.At 0

/-- The shifting loop of the left branch of `EraseRange`, `for i < leftNum`:
`data[idx] = data[(idx-eraseNum+cap) % cap]; idx = preIndex(idx)`. -/
def Deque.eraseLeftLoop (eraseNum : Int) : Nat → Deque α → Int → Option (Deque α × Int)
  | 0, d, idx => some (d, idx)
  | k + 1, d, idx => do
    let tempIndex ← goMod (idx - eraseNum + d.Capacity) d.Capacity
    let v ← getSlot d.data tempIndex
    let data ← setSlot d.data idx v
    let d := { d with data := data }
    let idx ← d.preIndex idx
    eraseLeftLoop eraseNum k d idx

/-- The shifting loop of the right branch of `EraseRange`, `for i < rightNum`:
`data[idx] = data[(idx+eraseNum+cap) % cap]; idx = nextIndex(idx)`. -/
def Deque.eraseRightLoop (eraseNum : Int) : Nat → Deque α → Int → Option (Deque α × Int)
  | 0, d, idx => some (d, idx)
  | k + 1, d, idx => do
    let tempIndex ← goMod (idx + eraseNum + d.Capacity) d.Capacity
    let v ← getSlot d.data tempIndex
    let data ← setSlot d.data idx v
    let d := { d with data := data }
    let idx ← d.nextIndex idx
    eraseRightLoop eraseNum k d idx

/-- The clearing loop of the left branch, `for i < eraseNum`:
`data[idx] = nil; idx = preIndex(idx)`. -/
def Deque.clearLeftLoop : Nat → Deque α → Int → Option (Deque α × Int)
  | 0, d, idx => some (d, idx)
  | k + 1, d, idx => do
    let data ← setSlot d.data idx none
    let d := { d with data := data }
    let idx ← d.preIndex idx
    clearLeftLoop k d idx

/-- The clearing loop of the right branch, `for i < eraseNum`:
`data[idx] = nil; idx = nextIndex(idx)`. -/
def Deque.clearRightLoop : Nat → Deque α → Int → Option (Deque α × Int)
  | 0, d, idx => some (d, idx)
  | k + 1, d, idx => do
    let data ← setSlot d.data idx none
    let d := { d with data := data }
    let idx ← d.nextIndex idx
    clearRightLoop k d idx

/-- Method `EraseRange(firstPos, lastPos)`: the deque after the call and the returned error. -/
def Deque.EraseRange (d : Deque α) (firstPos lastPos : Int) :
    Option (Deque α × GoError) :=
  if firstPos < 0 ∨ lastPos > d.size then some (d, GoError.ErrOutOffRange)
  else if firstPos ≥ lastPos then some (d, GoError.nil)
  else do
    let eraseNum := lastPos - firstPos
    let leftNum := firstPos
    let rightNum := d.size - lastPos
    let d ←
      if leftNum ≤ rightNum then do
        let p ← d.preIndex lastPos
        let idx ← goMod (d.begin + p) d.Capacity
        let (d, idx) ← Deque.eraseLeftLoop eraseNum leftNum.toNat d idx
        let b ← d.nextIndex idx
        let d := { d with begin := b }
        let (d, _) ← Deque.clearLeftLoop eraseNum.toNat d idx
        pure d
      else do
        let idx ← goMod (d.begin + firstPos) d.Capacity
        let (d, idx) ← Deque.eraseRightLoop eraseNum rightNum.toNat d idx
        let d := { d with end_ := idx }
        let (d, _) ← Deque.clearRightLoop eraseNum.toNat d idx
        pure d
    let d := { d with size := d.size - eraseNum }
    let d ← d.shrinkIfNeeded
    some (d, GoError.nil)

/-- Method `Erase(pos)`: `EraseRange(pos, pos+1)`, the sum taken in 64-bit `int`. -/
def Deque.Erase (d : Deque α) (pos : Int) : Option (Deque α × GoError) :=
  d.EraseRange pos (wrapInt (pos + 1))

/-- A call of one of the seven public mutators. -/
inductive Op (α : Type) where
  | PushBack (value : Option α)
  | PushFront (value : Option α)
  | PopBack
  | PopFront
  | Insert (pos : Int) (value : Option α)
  | Erase (pos : Int)
  | EraseRange (firstPos lastPos : Int)
  deriving DecidableEq

/-- The deque left by one call (results and errors dropped); `none` if it panics. -/
def Deque.step (d : Deque α) : Op α → Option (Deque α)
  | .PushBack v => d.PushBack v
  | .PushFront v => d.PushFront v
  | .PopBack => d.PopBack.map Prod.fst
  | .PopFront => d.PopFront.map Prod.fst
  | .Insert pos v => (d.Insert pos v).map Prod.fst
  | .Erase pos => (d.Erase pos).map Prod.fst
  | .EraseRange f l => (d.EraseRange f l).map Prod.fst

/-- The deque left by a sequence of calls; `none` as soon as one panics. -/
def Deque.run (d : Deque α) : List (Op α) → Option (Deque α)
  | [] => some d
  | op :: ops => (d.step op).bind fun d => d.run ops

/-- The calls `ops` applied to `New(c)`. -/
def runNew (c : Int) (ops : List (Op α)) : Option (Deque α) :=
  (New c).bind fun d => d.run ops

/-- Deques obtained from `New(c)`, `c ≥ 0`, by public operations. -/
def Reachable (d : Deque α) : Prop :=
  ∃ (c : Int) (ops : List (Op α)), 0 ≤ c ∧ runNew c ops = some d

/-- The logical contents `At(0), …, At(Size()-1)`; `none` if a read panics. -/
def Deque.toSeq (d : Deque α) : Option (List (Option α)) :=
  (List.range d.size.toNat).mapM fun i => d.At (i : Int)

/-- The representation invariant kept by every public operation. -/
def Deque.Inv (d : Deque α) : Prop :=
  0 ≤ d.size ∧ d.size ≤ d.Capacity ∧
  0 ≤ d.begin ∧ (d.begin < d.Capacity ∨ d.Capacity = 0) ∧
  0 ≤ d.end_ ∧ d.end_ ≤ d.Capacity

/-- What a loop over the storage leaves alone: the length of `data`, the
three integer fields, and an index that stays inside `[0, Capacity()]`. -/
def Deque.Frame (d : Deque α) (d' : Deque α) (idx' : Int) : Prop :=
  d'.data.length = d.data.length ∧ d'.begin = d.begin ∧ d'.end_ = d.end_ ∧
  d'.size = d.size ∧ 0 ≤ idx' ∧ idx' ≤ d.Capacity

/-- Reference list model, written from the specification: append, prepend,
drop last, drop first, insert at `pos`, remove one position, remove a half-open
range; a call with a position out of range leaves the list unchanged. -/
def refStep (l : List (Option α)) : Op α → List (Option α)
  | .PushBack v => l ++ [v]
  | .PushFront v => v :: l
  | .PopBack => l.dropLast
  | .PopFront => l.drop 1
  | .Insert pos v =>
    if 0 ≤ pos ∧ pos ≤ (l.length : Int) then l.take pos.toNat ++ v :: l.drop pos.toNat else l
  | .Erase pos =>
    if 0 ≤ pos ∧ pos < (l.length : Int) then l.take pos.toNat ++ l.drop (pos.toNat + 1) else l
  | .EraseRange f t =>
    if 0 ≤ f ∧ f < t ∧ t ≤ (l.length : Int) then l.take f.toNat ++ l.drop t.toNat else l

/-- The reference list after a sequence of calls. -/
def refRun (l : List (Option α)) (ops : List (Op α)) : List (Option α) :=
  ops.foldl refStep l

/-- Calls `PushBack(1); PushBack(2); PushBack(3); PopBack()`. -/
def opsPopBack : List (Op Nat) :=
  [.PushBack (some 1), .PushBack (some 2), .PushBack (some 3), .PopBack]

/-- Calls `PushBack(1); PushBack(2); PushBack(3); PopBack(); PushBack(4)`. -/
def opsPopBackPush : List (Op Nat) :=
  [.PushBack (some 1), .PushBack (some 2), .PushBack (some 3), .PopBack, .PushBack (some 4)]

/-- Calls `PushBack(1); PushBack(2); PushBack(3); PopFront(); PopFront()`. -/
def opsShrinkToFull : List (Op Nat) :=
  [.PushBack (some 1), .PushBack (some 2), .PushBack (some 3), .PopFront, .PopFront]

/-- Calls `PushBack(1); …; PushBack(5); PopBack()`. -/
def opsFivePopBack : List (Op Nat) :=
  [.PushBack (some 1), .PushBack (some 2), .PushBack (some 3), .PushBack (some 4),
    .PushBack (some 5), .PopBack]

/-- The deque left by `opsPopBack` on `New(4)`: two elements, `end` still 3. -/
def staleEndDeque : Deque Nat :=
  { data := [some 1, some 2, none, none], begin := 0, end_ := 3, size := 2 }

/-- The deque left by `opsShrinkToFull` on `New(5)`: `end` equals the capacity. -/
def shrunkDeque : Deque Nat :=
  { data := [none, some 3], begin := 1, end_ := 2, size := 1 }

/-- The deque left by `New(1); PushBack(7); PopBack()`: no storage at all. -/
def emptiedDeque : Deque Nat :=
  { data := [], begin := 0, end_ := 0, size := 0 }

/-- The deque left by `New(2); PushBack(1); PushBack(2)`. -/
def fullDeque : Deque Nat :=
  { data := [some 1, some 2], begin := 0, end_ := 0, size := 2 }


/-- Well-formedness of `size`, `begin` and the capacity; nothing is asked of `end`. -/
def Deque.Wf (d : Deque α) : Prop :=
  0 ≤ d.size ∧ d.size ≤ d.Capacity ∧ 0 ≤ d.begin ∧ (d.begin < d.Capacity ∨ d.Capacity = 0)

/-- The slot of `data` that the unreduced position `x` wraps around to. -/
def phys (l : List (Option α)) (x : Int) : Option (Option α) :=
  getSlot l (x % (l.length : Int))

/-- The field `end` is the slot one past the last element. -/
def Deque.EndOk (d : Deque α) : Prop :=
  d.end_ = (d.begin + d.size) % d.Capacity

/-- The deque reads as the list `l`: `Size()` is its length and `At(i)` its
`i`-th element. -/
def Deque.Models (d : Deque α) (l : List (Option α)) : Prop :=
  d.size = (l.length : Int) ∧ ∀ i : Nat, i < l.length → d.At (i : Int) = l[i]?

/-- The field `end` lies in `[0, Capacity()]` and is congruent to `begin + size`:
it is the slot one past the last element, or the capacity itself when that slot
is slot 0. -/
def Deque.EndNear (d : Deque α) : Prop :=
  0 ≤ d.end_ ∧ d.end_ ≤ d.Capacity ∧ d.end_ % d.Capacity = (d.begin + d.size) % d.Capacity

/-- The deque `New(1)`. -/
def newOneDeque : Deque Nat :=
  { data := [none], begin := 0, end_ := 0, size := 0 }

/-- A full deque whose elements wrap around the end of the slice: it reads `[1, 2, 3]`. -/
def wrappedDeque : Deque Nat :=
  { data := [some 2, some 3, some 1], begin := 2, end_ := 2, size := 3 }

/-- A deque of capacity 8 with one element. -/
def sparseDeque : Deque Nat :=
  { data := [none, none, none, some 1, none, none, none, none], begin := 3, end_ := 4, size := 1 }

/-- The calls that add one element at an end. -/
def Op.isPush : Op α → Bool
  | .PushBack _ => true
  | .PushFront _ => true
  | _ => false

/-- The calls that remove one element at an end. -/
def Op.isPop : Op α → Bool
  | .PopBack => true
  | .PopFront => true
  | _ => false

/-- The deque left by `New(5); PushBack(1); PushBack(2); PushBack(3); PopFront()`:
the shrink to capacity 2 leaves `end` equal to the capacity. -/
def endAtCapacityDeque : Deque Nat :=
  { data := [some 2, some 3], begin := 0, end_ := 2, size := 2 }

/-- Calls `PushBack(1); PushBack(2); PushBack(3)`. -/
def opsThreePushes : List (Op Nat) :=
  [.PushBack (some 1), .PushBack (some 2), .PushBack (some 3)]

/-- What a loop leaves alone apart from the contents of the slots. -/
def Deque.SameShape (d d' : Deque α) : Prop :=
  d'.data.length = d.data.length ∧ d'.begin = d.begin ∧ d'.end_ = d.end_ ∧ d'.size = d.size

/-! ## Lemmas -/

theorem goMod_of_nonneg {a b : Int} (ha : 0 ≤ a) (hb : 0 < b) :
    goMod a b = some (a % b) := by
  unfold goMod
  rw [if_neg (by omega), Int.tmod_eq_emod ha (by omega)]

theorem goMod_eq_some {a b r : Int} (h : goMod a b = some r) : b ≠ 0 := by
  unfold goMod at h
  by_contra hb
  simp [hb] at h

theorem goMod_range {a b r : Int} (ha : 0 ≤ a) (hb : 0 ≤ b) (h : goMod a b = some r) :
    0 ≤ r ∧ r < b := by
  have hb0 := goMod_eq_some h
  have hb1 : 0 < b := by omega
  rw [goMod_of_nonneg ha hb1] at h
  cases h
  exact ⟨Int.emod_nonneg _ hb0, Int.emod_lt_of_pos _ hb1⟩

theorem setSlot_eq_some {data data' : List (Option α)} {i : Int} {v : Option α}
    (h : setSlot data i v = some data') :
    0 ≤ i ∧ i < (data.length : Int) ∧ data' = data.set i.toNat v := by
  unfold setSlot at h
  split at h
  · rename_i hc
    cases h
    exact ⟨hc.1, hc.2, rfl⟩
  · cases h

theorem setSlot_length {data data' : List (Option α)} {i : Int} {v : Option α}
    (h : setSlot data i v = some data') : data'.length = data.length := by
  obtain ⟨_, _, rfl⟩ := setSlot_eq_some h
  simp

theorem setSlot_of_lt {data : List (Option α)} {i : Int} (v : Option α)
    (h0 : 0 ≤ i) (h1 : i < (data.length : Int)) :
    setSlot data i v = some (data.set i.toNat v) := by
  unfold setSlot
  rw [if_pos ⟨h0, h1⟩]

theorem getSlot_of_lt (data : List (Option α)) {i : Int}
    (h0 : 0 ≤ i) (h1 : i < (data.length : Int)) :
    ∃ v, getSlot data i = some v := by
  unfold getSlot
  rw [if_pos h0]
  have : i.toNat < data.length := by omega
  exact ⟨data[i.toNat], List.getElem?_eq_getElem this⟩

theorem getSlot_set_self {data : List (Option α)} {i : Int} (v : Option α)
    (h0 : 0 ≤ i) (h1 : i < (data.length : Int)) :
    getSlot (data.set i.toNat v) i = some v := by
  unfold getSlot
  rw [if_pos h0, List.getElem?_set]
  have : i.toNat < data.length := by omega
  simp [this]

theorem getSlot_set_ne {data : List (Option α)} {i j : Int} (v : Option α)
    (h0 : 0 ≤ i) (hj : 0 ≤ j) (hne : j ≠ i) :
    getSlot (data.set i.toNat v) j = getSlot data j := by
  have hij : i.toNat ≠ j.toNat := by omega
  simp only [getSlot, if_pos hj, List.getElem?_set, if_neg hij]

theorem excessBits_lower (fuel n : Nat) :
    excessBits fuel n = 0 ∨ 2 ^ (52 + excessBits fuel n) ≤ n := by
  induction fuel generalizing n with
  | zero => left; rfl
  | succ f ih =>
    unfold excessBits
    split
    · left; rfl
    · rename_i hn
      right
      rcases ih (n / 2) with h | h
      · rw [h]
        have : (2:Nat) ^ (52 + (0 + 1)) = 2 ^ 53 := by norm_num
        omega
      · have h2 : (2:Nat) ^ (52 + (excessBits f (n / 2) + 1)) = 2 ^ (52 + excessBits f (n / 2)) * 2 := by
          rw [← Nat.add_assoc, Nat.pow_succ]
        rw [h2]
        omega

theorem roundTo53_lower (n : Nat) : (2 ^ 52 - 1) * n ≤ 2 ^ 52 * roundTo53 n := by
  unfold roundTo53
  simp only
  split
  · omega
  · rename_i hsh
    rcases excessBits_lower n n with h | h
    · exact absurd h hsh
    · generalize excessBits n n = sh at h hsh
      have hp : (2:Nat) ^ (52 + sh) = 2 ^ 52 * 2 ^ sh := Nat.pow_add 2 52 sh
      rw [hp] at h
      have hdm := Nat.div_add_mod n (2 ^ sh)
      have hlt : n % 2 ^ sh < 2 ^ sh := Nat.mod_lt _ (by positivity)
      have hge : n / 2 ^ sh * 2 ^ sh ≤
          (if 2 ^ (sh - 1) < n % 2 ^ sh ∨ (n % 2 ^ sh = 2 ^ (sh - 1) ∧ n / 2 ^ sh % 2 = 1)
            then n / 2 ^ sh + 1 else n / 2 ^ sh) * 2 ^ sh := by
        apply Nat.mul_le_mul_right
        split <;> omega
      rw [Nat.mul_comm] at hdm
      generalize n / 2 ^ sh * 2 ^ sh = X at hdm hge
      generalize (if 2 ^ (sh - 1) < n % 2 ^ sh ∨ (n % 2 ^ sh = 2 ^ (sh - 1) ∧ n / 2 ^ sh % 2 = 1)
            then n / 2 ^ sh + 1 else n / 2 ^ sh) * 2 ^ sh = R at hge ⊢
      generalize n % 2 ^ sh = r at hdm hlt
      generalize (2:Nat) ^ sh = P at h hlt
      have e52 : (2:Nat) ^ 52 = 4503599627370496 := by norm_num
      rw [e52] at h ⊢
      omega

theorem truncMul12Nat_lower (n : Nat) : n ≤ truncMul12Nat n := by
  unfold truncMul12Nat float12Mantissa
  have h1 := roundTo53_lower n
  have h2 := roundTo53_lower (roundTo53 n * 5404319552844595)
  generalize roundTo53 (roundTo53 n * 5404319552844595) = t at h2 ⊢
  generalize roundTo53 n = a at h1 h2
  have e52 : (2:Nat) ^ 52 = 4503599627370496 := by norm_num
  rw [e52] at h1 h2 ⊢
  omega

theorem truncMul12_lower {n : Int} (h : 0 ≤ n) : n ≤ truncMul12 n := by
  unfold truncMul12
  rw [if_neg (by omega)]
  have := truncMul12Nat_lower n.toNat
  omega


theorem At_of_lt {d : Deque α} (hd : d.Inv) {j : Int} (h0 : 0 ≤ j) (h1 : j < d.size) :
    d.At j = getSlot d.data ((d.begin + j) % d.Capacity) := by
  obtain ⟨hs0, hs1, hb0, hb1, -, -⟩ := hd
  unfold Deque.At
  rw [if_neg (by omega), goMod_of_nonneg (by omega) (by omega), Int.add_comm]
  rfl

theorem At_of_not_lt {d : Deque α} {j : Int} (h : j < 0 ∨ d.size ≤ j) :
    d.At j = some none := by
  unfold Deque.At
  rw [if_pos (by omega)]

theorem copyLoop_spec (d : Deque α) (hb : 0 ≤ d.begin) (k : Nat) :
    ∀ (i : Int) (data : List (Option α)), 0 ≤ i → i + k ≤ data.length →
      (0 < d.Capacity ∨ k = 0) →
      ∃ data', d.copyLoop k i data = some data' ∧ data'.length = data.length ∧
        (∀ j, 0 ≤ j → j < i → getSlot data' j = getSlot data j) ∧
        (∀ j, i ≤ j → j < i + k →
          getSlot data' j = getSlot d.data ((d.begin + j) % d.Capacity)) := by
  induction k with
  | zero =>
    intro i data _ _ _
    refine ⟨data, rfl, rfl, fun _ _ _ => rfl, ?_⟩
    intro j h1 h2
    simp at h2
    omega
  | succ k ih =>
    intro i data hi hfit hcap
    have hc : 0 < d.Capacity := by
      rcases hcap with h | h
      · exact h
      · omega
    have hp0 : 0 ≤ (d.begin + i) % d.Capacity := Int.emod_nonneg _ (by omega)
    have hp1 : (d.begin + i) % d.Capacity < d.Capacity := Int.emod_lt_of_pos _ hc
    obtain ⟨v, hv⟩ := getSlot_of_lt d.data hp0 hp1
    have hil : i < (data.length : Int) := by push_cast at hfit; omega
    obtain ⟨data', h1, h2, h3, h4⟩ := ih (i + 1) (data.set i.toNat v) (by omega)
      (by simp only [List.length_set]; push_cast at hfit ⊢; omega) (Or.inl hc)
    refine ⟨data', ?_, ?_, ?_, ?_⟩
    · unfold Deque.copyLoop
      simp only [goMod_of_nonneg (Int.add_nonneg hb hi) hc, hv, setSlot_of_lt v hi hil,
        Option.bind_eq_bind, Option.some_bind]
      exact h1
    · rw [h2, List.length_set]
    · intro j hj0 hj1
      rw [h3 j hj0 (by omega), getSlot_set_ne v hi hj0 (by omega)]
    · intro j hj0 hj1
      by_cases hji : j = i
      · subst hji
        rw [h3 j hi (by omega), getSlot_set_self v hi hil, hv]
      · exact h4 j (by omega) (by push_cast at hj1; omega)

theorem makeSlice_of_nonneg {n : Int} (h : 0 ≤ n) :
    (makeSlice n : Option (List (Option α))) = some (List.replicate n.toNat none) := by
  unfold makeSlice
  rw [if_neg (by omega)]

/-- The re-linearisation done by both resizing steps, for a target length that
holds every element. -/
theorem relinearize_spec {d : Deque α} (hd : d.Inv) {n : Int} (hn : d.size ≤ n) :
    ∃ data', (makeSlice n).bind (fun data => d.copyLoop d.size.toNat 0 data) = some data' ∧
      (data'.length : Int) = n ∧
      ∀ d' : Deque α, d'.data = data' → d'.begin = 0 → d'.size = d.size →
        ∀ j, d'.At j = d.At j := by
  have hd' := hd
  obtain ⟨hs0, hs1, hb0, hb1, -, -⟩ := hd
  obtain ⟨data', h1, h2, -, h4⟩ := copyLoop_spec d hb0 d.size.toNat 0
    (List.replicate n.toNat none) (le_refl 0) (by simp; omega) (by omega)
  refine ⟨data', ?_, ?_, ?_⟩
  · rw [makeSlice_of_nonneg (by omega)]
    exact h1
  · rw [h2]; simp; omega
  · intro d' e1 e2 e3 j
    by_cases hj : 0 ≤ j ∧ j < d.size
    · have hcap' : d'.Capacity = n := by
        unfold Deque.Capacity; rw [e1, h2]; simp; omega
      have hd1 : d'.At j = getSlot d'.data ((d'.begin + j) % d'.Capacity) := by
        unfold Deque.At
        rw [if_neg (by omega), goMod_of_nonneg (by omega) (by omega), Int.add_comm]
        rfl
      rw [hd1, At_of_lt hd' hj.1 hj.2, e2, hcap', e1, Int.zero_add,
        Int.emod_eq_of_lt hj.1 (by omega)]
      exact h4 j hj.1 (by omega)
    · rw [At_of_not_lt (by omega), At_of_not_lt (by omega)]

theorem expandIfNeeded_spec {d : Deque α} (hd : d.Inv) :
    ∃ d', d.expandIfNeeded = some d' ∧ d'.Inv ∧ d'.size = d.size ∧
      d'.size < d'.Capacity ∧ d'.begin < d'.Capacity ∧
      (d.size ≠ d.Capacity → d' = d) ∧ ∀ j, d'.At j = d.At j := by
  have hd' := hd
  obtain ⟨hs0, hs1, hb0, hb1, he0, he1⟩ := hd
  unfold Deque.expandIfNeeded
  by_cases hfull : d.size = d.Capacity
  · rw [if_pos hfull]
    have hn : d.size ≤ (if d.size * 2 = 0 then 1 else d.size * 2) := by split <;> omega
    have hn' : d.size < (if d.size * 2 = 0 then 1 else d.size * 2) := by split <;> omega
    obtain ⟨data', h1, h2, h3⟩ := relinearize_spec hd' hn
    simp only [Option.bind_eq_bind] at h1 ⊢
    generalize (if d.size * 2 = 0 then 1 else d.size * 2) = n at *
    cases hm : (makeSlice n : Option (List (Option α))) with
    | none => rw [hm] at h1; cases h1
    | some data0 =>
      rw [hm] at h1
      simp only [Option.some_bind] at h1 ⊢
      rw [h1]
      simp only [Option.some_bind]
      refine ⟨_, rfl, ?_, rfl, ?_, ?_, ?_, ?_⟩
      · simp only [Deque.Inv, Deque.Capacity]
        omega
      · simp only [Deque.Capacity]; omega
      · simp only [Deque.Capacity]; omega
      · intro hne; exact absurd hfull hne
      · exact h3 _ rfl rfl rfl
  · rw [if_neg hfull]
    refine ⟨d, rfl, hd', rfl, by omega, by omega, fun _ => rfl, fun _ => rfl⟩

theorem shrinkIfNeeded_spec {d : Deque α} (hd : d.Inv) :
    ∃ d', d.shrinkIfNeeded = some d' ∧ d'.Inv ∧ d'.size = d.size ∧
      ∀ j, d'.At j = d.At j := by
  have hd' := hd
  obtain ⟨hs0, hs1, hb0, hb1, he0, he1⟩ := hd
  unfold Deque.shrinkIfNeeded
  by_cases hsh : d.shrinkThreshold < d.Capacity
  · rw [if_pos hsh]
    have hthr : d.size * 2 ≤ d.shrinkThreshold := truncMul12_lower (by omega)
    have hdiv : Int.tdiv d.Capacity 2 = d.Capacity / 2 :=
      Int.tdiv_eq_ediv (by omega) (by omega)
    have hn : d.size ≤ Int.tdiv d.Capacity 2 := by rw [hdiv]; omega
    obtain ⟨data', h1, h2, h3⟩ := relinearize_spec hd' hn
    simp only [Option.bind_eq_bind] at h1 ⊢
    generalize Int.tdiv d.Capacity 2 = n at *
    cases hm : (makeSlice n : Option (List (Option α))) with
    | none => rw [hm] at h1; cases h1
    | some data0 =>
      rw [hm] at h1
      simp only [Option.some_bind] at h1 ⊢
      rw [h1]
      simp only [Option.some_bind]
      refine ⟨_, rfl, ?_, rfl, ?_⟩
      · simp only [Deque.Inv, Deque.Capacity]
        omega
      · exact h3 _ rfl rfl rfl
  · rw [if_neg hsh]
    exact ⟨d, rfl, hd', rfl, fun _ => rfl⟩


theorem frame_step {d d1 d' : Deque α} {idx idx1 idx' x : Int} {v : Option α}
    {data : List (Option α)}
    (hset : setSlot d.data idx v = some data)
    (hd1 : d1 = { d with data := data })
    (hx : 0 ≤ idx → idx < d.Capacity → 0 ≤ x)
    (hidx : goMod x d1.Capacity = some idx1)
    (ih : 0 ≤ idx1 → idx1 ≤ d1.Capacity → d1.Frame d' idx') :
    d.Frame d' idx' := by
  obtain ⟨h0, h1, -⟩ := setSlot_eq_some hset
  have hl := setSlot_length hset
  subst hd1
  simp only [Deque.Capacity, Deque.Frame, hl] at hidx ih hx h1 ⊢
  obtain ⟨r0, r1⟩ := goMod_range (hx h0 h1) (by omega) hidx
  obtain ⟨f1, f2, f3, f4, f5, f6⟩ := ih r0 (by omega)
  exact ⟨f1, f2, f3, f4, f5, f6⟩

theorem insertFrontLoop_frame (k : Nat) : ∀ (d d' : Deque α) (idx idx' : Int),
    Deque.insertFrontLoop k d idx = some (d', idx') → 0 ≤ idx → idx ≤ d.Capacity →
    d.Frame d' idx' := by
  induction k with
  | zero =>
    intro d d' idx idx' h h0 h1
    simp only [Deque.insertFrontLoop, Option.some.injEq, Prod.mk.injEq] at h
    obtain ⟨rfl, rfl⟩ := h
    exact ⟨rfl, rfl, rfl, rfl, h0, h1⟩
  | succ k ih =>
    intro d d' idx idx' h h0 h1
    simp only [Deque.insertFrontLoop, Option.bind_eq_bind, Option.bind_eq_some] at h
    obtain ⟨n, -, v, -, data, hset, idx1, hidx, hrec⟩ := h
    exact frame_step hset rfl (fun _ _ => by omega) hidx (ih _ _ _ _ hrec)

theorem insertBackLoop_frame (k : Nat) : ∀ (d d' : Deque α) (idx idx' : Int),
    Deque.insertBackLoop k d idx = some (d', idx') → 0 ≤ idx → idx ≤ d.Capacity →
    d.Frame d' idx' := by
  induction k with
  | zero =>
    intro d d' idx idx' h h0 h1
    simp only [Deque.insertBackLoop, Option.some.injEq, Prod.mk.injEq] at h
    obtain ⟨rfl, rfl⟩ := h
    exact ⟨rfl, rfl, rfl, rfl, h0, h1⟩
  | succ k ih =>
    intro d d' idx idx' h h0 h1
    simp only [Deque.insertBackLoop, Option.bind_eq_bind, Option.bind_eq_some] at h
    obtain ⟨n, -, v, -, data, hset, idx1, hidx, hrec⟩ := h
    refine frame_step hset rfl (fun a b => ?_) hidx (ih _ _ _ _ hrec)
    simp only [Deque.Capacity, setSlot_length hset] at b ⊢
    omega

theorem eraseLeftLoop_frame (e : Int) (k : Nat) : ∀ (d d' : Deque α) (idx idx' : Int),
    Deque.eraseLeftLoop e k d idx = some (d', idx') → 0 ≤ idx → idx ≤ d.Capacity →
    d.Frame d' idx' := by
  induction k with
  | zero =>
    intro d d' idx idx' h h0 h1
    simp only [Deque.eraseLeftLoop, Option.some.injEq, Prod.mk.injEq] at h
    obtain ⟨rfl, rfl⟩ := h
    exact ⟨rfl, rfl, rfl, rfl, h0, h1⟩
  | succ k ih =>
    intro d d' idx idx' h h0 h1
    simp only [Deque.eraseLeftLoop, Option.bind_eq_bind, Option.bind_eq_some] at h
    obtain ⟨n, -, v, -, data, hset, idx1, hidx, hrec⟩ := h
    refine frame_step hset rfl (fun a b => ?_) hidx (ih _ _ _ _ hrec)
    simp only [Deque.Capacity, setSlot_length hset] at b ⊢
    omega

theorem eraseRightLoop_frame (e : Int) (k : Nat) : ∀ (d d' : Deque α) (idx idx' : Int),
    Deque.eraseRightLoop e k d idx = some (d', idx') → 0 ≤ idx → idx ≤ d.Capacity →
    d.Frame d' idx' := by
  induction k with
  | zero =>
    intro d d' idx idx' h h0 h1
    simp only [Deque.eraseRightLoop, Option.some.injEq, Prod.mk.injEq] at h
    obtain ⟨rfl, rfl⟩ := h
    exact ⟨rfl, rfl, rfl, rfl, h0, h1⟩
  | succ k ih =>
    intro d d' idx idx' h h0 h1
    simp only [Deque.eraseRightLoop, Option.bind_eq_bind, Option.bind_eq_some] at h
    obtain ⟨n, -, v, -, data, hset, idx1, hidx, hrec⟩ := h
    exact frame_step hset rfl (fun _ _ => by omega) hidx (ih _ _ _ _ hrec)

theorem clearLeftLoop_frame (k : Nat) : ∀ (d d' : Deque α) (idx idx' : Int),
    Deque.clearLeftLoop k d idx = some (d', idx') → 0 ≤ idx → idx ≤ d.Capacity →
    d.Frame d' idx' := by
  induction k with
  | zero =>
    intro d d' idx idx' h h0 h1
    simp only [Deque.clearLeftLoop, Option.some.injEq, Prod.mk.injEq] at h
    obtain ⟨rfl, rfl⟩ := h
    exact ⟨rfl, rfl, rfl, rfl, h0, h1⟩
  | succ k ih =>
    intro d d' idx idx' h h0 h1
    simp only [Deque.clearLeftLoop, Option.bind_eq_bind, Option.bind_eq_some] at h
    obtain ⟨data, hset, idx1, hidx, hrec⟩ := h
    refine frame_step hset rfl (fun a b => ?_) hidx (ih _ _ _ _ hrec)
    simp only [Deque.Capacity, setSlot_length hset] at b ⊢
    omega

theorem clearRightLoop_frame (k : Nat) : ∀ (d d' : Deque α) (idx idx' : Int),
    Deque.clearRightLoop k d idx = some (d', idx') → 0 ≤ idx → idx ≤ d.Capacity →
    d.Frame d' idx' := by
  induction k with
  | zero =>
    intro d d' idx idx' h h0 h1
    simp only [Deque.clearRightLoop, Option.some.injEq, Prod.mk.injEq] at h
    obtain ⟨rfl, rfl⟩ := h
    exact ⟨rfl, rfl, rfl, rfl, h0, h1⟩
  | succ k ih =>
    intro d d' idx idx' h h0 h1
    simp only [Deque.clearRightLoop, Option.bind_eq_bind, Option.bind_eq_some] at h
    obtain ⟨data, hset, idx1, hidx, hrec⟩ := h
    exact frame_step hset rfl (fun _ _ => by omega) hidx (ih _ _ _ _ hrec)


theorem emod_two {x c : Int} (h0 : 0 ≤ x) (h1 : x < 2 * c) :
    x % c = if x < c then x else x - c := by
  split
  · rename_i h
    exact Int.emod_eq_of_lt h0 h
  · rename_i h
    have e : x = (x - c) + 1 * c := by omega
    conv_lhs => rw [e]
    rw [Int.add_mul_emod_self, Int.emod_eq_of_lt (by omega) (by omega)]

theorem PushFront_spec {d : Deque α} (hd : d.Inv) (v : Option α) :
    ∃ d', d.PushFront v = some d' ∧ d'.Inv ∧ d'.size = d.size + 1 ∧
      d'.At 0 = some v ∧ ∀ j, 0 ≤ j → j < d.size → d'.At (j + 1) = d.At j := by
  obtain ⟨d1, he, hd1, hs, hlt, hbl, -, hat⟩ := expandIfNeeded_spec hd
  have hd1' := hd1
  obtain ⟨hs0, hs1, hb0, hb1, he0, he1⟩ := hd1
  have hc : 0 < d1.Capacity := by omega
  have hm := emod_two (x := d1.begin - 1 + d1.Capacity) (c := d1.Capacity) (by omega) (by omega)
  have hr0 : 0 ≤ (d1.begin - 1 + d1.Capacity) % d1.Capacity := Int.emod_nonneg _ (by omega)
  have hr1 : (d1.begin - 1 + d1.Capacity) % d1.Capacity < d1.Capacity :=
    Int.emod_lt_of_pos _ hc
  generalize hbdef : (d1.begin - 1 + d1.Capacity) % d1.Capacity = b at hm hr0 hr1
  have hrun : d.PushFront v = some
      { data := d1.data.set b.toNat v, begin := b, end_ := d1.end_, size := d1.size + 1 } := by
    unfold Deque.PushFront
    simp only [he, Option.bind_eq_bind, Option.some_bind, Deque.preIndex,
      goMod_of_nonneg (show 0 ≤ d1.begin - 1 + d1.Capacity by omega) hc, hbdef,
      setSlot_of_lt v hr0 hr1]
  have hinv : Deque.Inv
      { data := d1.data.set b.toNat v, begin := b, end_ := d1.end_, size := d1.size + 1 } := by
    simp only [Deque.Inv, Deque.Capacity, List.length_set] at *
    omega
  refine ⟨_, hrun, hinv, by simp only; omega, ?_, ?_⟩
  · rw [At_of_lt hinv (le_refl 0) (by simp only; omega)]
    simp only [Deque.Capacity, List.length_set, Int.add_zero]
    simp only [Deque.Capacity] at hr1
    rw [Int.emod_eq_of_lt hr0 hr1]
    exact getSlot_set_self v hr0 hr1
  · intro j hj0 hj1
    rw [At_of_lt hinv (by omega) (by simp only; omega), ← hat j, At_of_lt hd1' hj0 (by omega)]
    simp only [Deque.Capacity, List.length_set]
    have m1 := emod_two (x := b + (j + 1)) (c := d1.Capacity) (by omega) (by omega)
    have m2 := emod_two (x := d1.begin + j) (c := d1.Capacity) (by omega) (by omega)
    have hp0 : 0 ≤ (d1.begin + j) % d1.Capacity := Int.emod_nonneg _ (by omega)
    have heq : (b + (j + 1)) % d1.Capacity = (d1.begin + j) % d1.Capacity := by
      split at hm <;> split at m1 <;> split at m2 <;> omega
    have hne : (d1.begin + j) % d1.Capacity ≠ b := by
      split at hm <;> split at m2 <;> omega
    simp only [Deque.Capacity] at heq hne hp0
    rw [heq]
    exact getSlot_set_ne v hr0 hp0 hne

theorem PopFront_empty {d : Deque α} (h : d.size = 0) : d.PopFront = some (d, none) := by
  simp [Deque.PopFront, Deque.Empty, Deque.Size, h]

theorem PopFront_spec {d : Deque α} (hd : d.Inv) (hne : d.size ≠ 0) :
    ∃ d' v, d.PopFront = some (d', v) ∧ d'.Inv ∧ d.At 0 = some v ∧
      d'.size = d.size - 1 ∧ ∀ j, 0 ≤ j → j < d'.size → d'.At j = d.At (j + 1) := by
  have hd' := hd
  obtain ⟨hs0, hs1, hb0, hb1, he0, he1⟩ := hd
  have hc : 0 < d.Capacity := by omega
  have hbl : d.begin < d.Capacity := by omega
  obtain ⟨val, hval⟩ := getSlot_of_lt d.data hb0 hbl
  have hm := emod_two (x := d.begin + 1) (c := d.Capacity) (by omega) (by omega)
  have hr0 : 0 ≤ (d.begin + 1) % d.Capacity := Int.emod_nonneg _ (by omega)
  have hr1 : (d.begin + 1) % d.Capacity < d.Capacity := Int.emod_lt_of_pos _ hc
  generalize hbdef : (d.begin + 1) % d.Capacity = b at hm hr0 hr1
  have hinv : Deque.Inv
      { data := d.data.set d.begin.toNat none, begin := b, end_ := d.end_, size := d.size - 1 } := by
    simp only [Deque.Inv, Deque.Capacity, List.length_set] at *
    omega
  obtain ⟨d3, hsh, hd3, hs3, hat3⟩ := shrinkIfNeeded_spec hinv
  have hrun : d.PopFront = some (d3, val) := by
    unfold Deque.PopFront
    have hE : d.Empty = false := by simp [Deque.Empty, Deque.Size, hne]
    have hc' : (0 : Int) < (d.data.length : Int) := hc
    simp only [hE, Bool.false_eq_true, if_false, hval, Option.bind_eq_bind, Option.some_bind,
      setSlot_of_lt none hb0 hbl, Deque.nextIndex, Deque.Capacity,
      goMod_of_nonneg (show 0 ≤ d.begin + 1 by omega) hc', List.length_set]
    simp only [Deque.Capacity] at hbdef
    rw [hbdef, hsh]
    rfl
  refine ⟨d3, val, hrun, hd3, ?_, by rw [hs3], ?_⟩
  · rw [At_of_lt hd' (le_refl 0) (by omega), Int.add_zero, Int.emod_eq_of_lt hb0 hbl, hval]
  · intro j hj0 hj1
    rw [hs3] at hj1
    simp only at hj1
    rw [hat3 j, At_of_lt hinv hj0 (by simp only; omega), At_of_lt hd' (by omega) (by omega)]
    simp only [Deque.Capacity, List.length_set]
    have m1 := emod_two (x := b + j) (c := d.Capacity) (by omega) (by omega)
    have m2 := emod_two (x := d.begin + (j + 1)) (c := d.Capacity) (by omega) (by omega)
    have hp0 : 0 ≤ (d.begin + (j + 1)) % d.Capacity := Int.emod_nonneg _ (by omega)
    have heq : (b + j) % d.Capacity = (d.begin + (j + 1)) % d.Capacity := by
      split at hm <;> split at m1 <;> split at m2 <;> omega
    have hne' : (d.begin + (j + 1)) % d.Capacity ≠ d.begin := by
      split at m2 <;> omega
    simp only [Deque.Capacity] at heq hne' hp0
    rw [heq]
    exact getSlot_set_ne none hb0 hp0 hne'


theorem PushBack_inv {d d' : Deque α} (hd : d.Inv) {v : Option α}
    (h : d.PushBack v = some d') : d'.Inv ∧ d'.size = d.size + 1 := by
  obtain ⟨d1, he, hd1, hs, hlt, hbl, -, -⟩ := expandIfNeeded_spec hd
  obtain ⟨hs0, hs1, hb0, hb1, he0, he1⟩ := hd1
  unfold Deque.PushBack at h
  simp only [he, Option.bind_eq_bind, Option.some_bind, Option.bind_eq_some, Deque.nextIndex,
    Option.some.injEq] at h
  obtain ⟨data, hset, e, hnext, rfl⟩ := h
  have hl := setSlot_length hset
  obtain ⟨r0, r1⟩ := goMod_range (by omega) (by unfold Deque.Capacity; omega) hnext
  simp only [Deque.Inv, Deque.Capacity, hl] at *
  omega

theorem PopBack_inv {d d' : Deque α} (hd : d.Inv) {v : Option α}
    (h : d.PopBack = some (d', v)) : d'.Inv := by
  unfold Deque.PopBack at h
  split at h
  · simp only [Option.some.injEq, Prod.mk.injEq] at h
    rw [← h.1]; exact hd
  · rename_i hE
    have hne : d.size ≠ 0 := by
      intro h0; apply hE; simp [Deque.Empty, Deque.Size, h0]
    simp only [Option.bind_eq_bind, Option.bind_eq_some, Option.some.injEq, Prod.mk.injEq] at h
    obtain ⟨index, -, val, -, data, hset, d3, hsh, rfl, -⟩ := h
    have hl := setSlot_length hset
    have hinv : Deque.Inv
        { data := data, begin := d.begin, end_ := d.end_, size := d.size - 1 } := by
      simp only [Deque.Inv, Deque.Capacity, hl] at *
      omega
    obtain ⟨d3', hsh', hd3, -⟩ := shrinkIfNeeded_spec hinv
    rw [hsh] at hsh'
    cases hsh'
    exact hd3

theorem Insert_inv {d d' : Deque α} (hd : d.Inv) {pos : Int} {v : Option α} {e : GoError}
    (h : d.Insert pos v = some (d', e)) : d'.Inv := by
  unfold Deque.Insert at h
  split at h
  · simp only [Option.some.injEq, Prod.mk.injEq] at h
    rw [← h.1]; exact hd
  split at h
  · obtain ⟨d1, h1, hd1, -⟩ := PushFront_spec hd v
    rw [h1] at h
    simp only [Option.map_some', Option.some.injEq, Prod.mk.injEq] at h
    rw [← h.1]; exact hd1
  split at h
  · simp only [Option.map_eq_some', Prod.mk.injEq] at h
    obtain ⟨d1, h1, rfl, -⟩ := h
    exact (PushBack_inv hd h1).1
  obtain ⟨d1, he, hd1, hs, hlt, hbl, -, -⟩ := expandIfNeeded_spec hd
  obtain ⟨hs0, hs1, hb0, hb1, he0, he1⟩ := hd1
  simp only [he, Option.bind_eq_bind, Option.some_bind] at h
  split at h
  · simp only [Option.bind_eq_some, Option.some.injEq, Prod.mk.injEq, Deque.preIndex,
      Prod.exists] at h
    obtain ⟨idx, hidx, d2, idx2, hloop, data, hset, b, hb, rfl, -⟩ := h
    obtain ⟨r0, r1⟩ := goMod_range (by omega) (by omega) hidx
    obtain ⟨f1, f2, f3, f4, f5, f6⟩ := insertFrontLoop_frame _ _ _ _ _ hloop r0 (by omega)
    have hl := setSlot_length hset
    simp only [Deque.Capacity, hl, f1, f2] at hb
    obtain ⟨q0, q1⟩ := goMod_range (by unfold Deque.Capacity at hbl; omega) (by omega) hb
    simp only [Deque.Inv, Deque.Capacity, hl, f1, f2, f3, f4] at *
    omega
  · simp only [Option.bind_eq_some, Option.some.injEq, Prod.mk.injEq, Deque.nextIndex,
      Prod.exists] at h
    obtain ⟨d2, idx2, hloop, data, hset, b, hb, rfl, -⟩ := h
    obtain ⟨f1, f2, f3, f4, f5, f6⟩ := insertBackLoop_frame _ _ _ _ _ hloop he0 he1
    have hl := setSlot_length hset
    simp only [Deque.Capacity, hl, f1, f3] at hb
    obtain ⟨q0, q1⟩ := goMod_range (by omega) (by omega) hb
    simp only [Deque.Inv, Deque.Capacity, hl, f1, f2, f3, f4] at *
    omega

theorem EraseRange_inv {d d' : Deque α} (hd : d.Inv) {firstPos lastPos : Int} {e : GoError}
    (h : d.EraseRange firstPos lastPos = some (d', e)) : d'.Inv := by
  unfold Deque.EraseRange at h
  by_cases hrange : firstPos < 0 ∨ lastPos > d.size
  · rw [if_pos hrange] at h
    simp only [Option.some.injEq, Prod.mk.injEq] at h
    rw [← h.1]; exact hd
  rw [if_neg hrange] at h
  by_cases hlt : firstPos ≥ lastPos
  · rw [if_pos hlt] at h
    simp only [Option.some.injEq, Prod.mk.injEq] at h
    rw [← h.1]; exact hd
  rw [if_neg hlt] at h
  obtain ⟨hs0, hs1, hb0, hb1, he0, he1⟩ := hd
  have key : ∀ d4 d5 : Deque α, d4.Inv → d4.size = d.size →
      Deque.shrinkIfNeeded { d4 with size := d4.size - (lastPos - firstPos) } = some d5 →
      d5.Inv := by
    intro d4 d5 hinv4 hsz hsh
    have hinv : Deque.Inv { d4 with size := d4.size - (lastPos - firstPos) } := by
      obtain ⟨a0, a1, a2, a3, a4, a5⟩ := hinv4
      simp only [Deque.Inv, Deque.Capacity] at *
      omega
    obtain ⟨d5', hsh', hd5, -⟩ := shrinkIfNeeded_spec hinv
    rw [hsh] at hsh'
    cases hsh'
    exact hd5
  by_cases hbr : firstPos ≤ d.size - lastPos
  · simp only [if_pos hbr, Option.bind_eq_bind, Option.bind_eq_some, Option.some.injEq,
      Prod.mk.injEq, Deque.preIndex, Deque.nextIndex, Prod.exists, Option.pure_def] at h
    obtain ⟨p, hp, idx, hidx, d2, idx2, hloop, b, hb, d3, idx3, hclear, d4, rfl, d5, hsh,
      rfl, -⟩ := h
    refine key _ _ ?_ ?_ hsh
    all_goals
      obtain ⟨p0, p1⟩ := goMod_range (by omega) (by unfold Deque.Capacity; omega) hp
      obtain ⟨r0, r1⟩ := goMod_range (by omega) (by unfold Deque.Capacity; omega) hidx
      obtain ⟨f1, f2, f3, f4, f5, f6⟩ := eraseLeftLoop_frame _ _ _ _ _ _ hloop r0 (by omega)
      simp only [Deque.Capacity, f1] at hb
      obtain ⟨q0, q1⟩ := goMod_range (by omega) (by omega) hb
      obtain ⟨g1, g2, g3, g4, g5, g6⟩ := clearLeftLoop_frame _ _ _ _ _ hclear f5
        (by simp only [Deque.Capacity, f1] at f6 ⊢; exact f6)
      simp only [Deque.Inv, Deque.Capacity, f1, f2, f3, f4, g1, g2, g3, g4] at * <;> omega
  · simp only [if_neg hbr, Option.bind_eq_bind, Option.bind_eq_some, Option.some.injEq,
      Prod.mk.injEq, Prod.exists, Option.pure_def] at h
    obtain ⟨idx, hidx, d2, idx2, hloop, d3, idx3, hclear, d4, rfl, d5, hsh, rfl, -⟩ := h
    refine key _ _ ?_ ?_ hsh
    all_goals
      obtain ⟨r0, r1⟩ := goMod_range (by omega) (by unfold Deque.Capacity; omega) hidx
      obtain ⟨f1, f2, f3, f4, f5, f6⟩ := eraseRightLoop_frame _ _ _ _ _ _ hloop r0 (by omega)
      obtain ⟨g1, g2, g3, g4, g5, g6⟩ := clearRightLoop_frame _ _ _ _ _ hclear f5
        (by simp only [Deque.Capacity, f1] at f6 ⊢; exact f6)
      simp only [Deque.Inv, Deque.Capacity, f1, f2, f3, f4, g1, g2, g3, g4] at * <;> omega

theorem step_inv {d d' : Deque α} (hd : d.Inv) (op : Op α) (h : d.step op = some d') :
    d'.Inv := by
  cases op with
  | PushBack v => exact (PushBack_inv hd h).1
  | PushFront v =>
    obtain ⟨d1, h1, hd1, -⟩ := PushFront_spec hd v
    simp only [Deque.step, h1, Option.some.injEq] at h
    rw [← h]; exact hd1
  | PopBack =>
    simp only [Deque.step, Option.map_eq_some', Prod.exists, exists_and_right,
      exists_eq_right] at h
    obtain ⟨v, hv⟩ := h
    exact PopBack_inv hd hv
  | PopFront =>
    simp only [Deque.step, Option.map_eq_some', Prod.exists, exists_and_right,
      exists_eq_right] at h
    obtain ⟨v, hv⟩ := h
    by_cases h0 : d.size = 0
    · rw [PopFront_empty h0] at hv
      simp only [Option.some.injEq, Prod.mk.injEq] at hv
      rw [← hv.1]; exact hd
    · obtain ⟨d1, v1, h1, hd1, -⟩ := PopFront_spec hd h0
      rw [h1] at hv
      simp only [Option.some.injEq, Prod.mk.injEq] at hv
      rw [← hv.1]; exact hd1
  | Insert pos v =>
    simp only [Deque.step, Option.map_eq_some', Prod.exists, exists_and_right,
      exists_eq_right] at h
    obtain ⟨e, he⟩ := h
    exact Insert_inv hd he
  | Erase pos =>
    simp only [Deque.step, Option.map_eq_some', Prod.exists, exists_and_right,
      exists_eq_right, Deque.Erase] at h
    obtain ⟨e, he⟩ := h
    exact EraseRange_inv hd he
  | EraseRange f l =>
    simp only [Deque.step, Option.map_eq_some', Prod.exists, exists_and_right,
      exists_eq_right] at h
    obtain ⟨e, he⟩ := h
    exact EraseRange_inv hd he

theorem run_inv (ops : List (Op α)) : ∀ {d d' : Deque α}, d.Inv → d.run ops = some d' →
    d'.Inv := by
  induction ops with
  | nil =>
    intro d d' hd h
    simp only [Deque.run, Option.some.injEq] at h
    rw [← h]; exact hd
  | cons op ops ih =>
    intro d d' hd h
    simp only [Deque.run, Option.bind_eq_some] at h
    obtain ⟨d1, h1, h2⟩ := h
    exact ih (step_inv hd op h1) h2

theorem New_inv {c : Int} {d : Deque α} (h : New c = some d) : d.Inv ∧ 1 ≤ d.Capacity := by
  unfold New makeSlice at h
  simp only at h
  generalize hn : (if c = 0 then 1 else c) = n at h
  by_cases hneg : n < 0
  · rw [if_pos hneg] at h
    cases h
  · rw [if_neg hneg] at h
    simp only [Option.map_some', Option.some.injEq] at h
    subst h
    simp only [Deque.Inv, Deque.Capacity, List.length_replicate]
    split at hn <;> omega

theorem Reachable.inv {d : Deque α} (h : Reachable d) : d.Inv := by
  obtain ⟨c, ops, -, hrun⟩ := h
  simp only [runNew, Option.bind_eq_some] at hrun
  obtain ⟨d0, h0, h1⟩ := hrun
  exact run_inv ops (New_inv h0).1 h1

/-! ## Lemmas on positions, loops and resizing -/

theorem Deque.Inv.wf {d : Deque α} (h : d.Inv) : d.Wf :=
  ⟨h.1, h.2.1, h.2.2.1, h.2.2.2.1⟩

theorem phys_add_len (l : List (Option α)) (x : Int) :
    phys l (x + (l.length : Int)) = phys l x := by
  unfold phys
  rw [Int.add_emod_self]

theorem phys_sub_len (l : List (Option α)) (x : Int) :
    phys l (x - (l.length : Int)) = phys l x := by
  rw [← phys_add_len l (x - (l.length : Int)), Int.sub_add_cancel]

theorem phys_add_of_len {l : List (Option α)} {c : Int} (h : (l.length : Int) = c) (x : Int) :
    phys l (x + c) = phys l x := by
  rw [← h, phys_add_len]

theorem phys_sub_of_len {l : List (Option α)} {c : Int} (h : (l.length : Int) = c) (x : Int) :
    phys l (x - c) = phys l x := by
  rw [← h, phys_sub_len]

theorem phys_emod_add (l : List (Option α)) (a j : Int) :
    phys l (a % (l.length : Int) + j) = phys l (a + j) := by
  unfold phys
  rw [Int.emod_add_emod]

theorem phys_emod_add_of_len {l : List (Option α)} {c : Int} (h : (l.length : Int) = c)
    (a j : Int) : phys l (a % c + j) = phys l (a + j) := by
  rw [← h, phys_emod_add]

theorem emod_ne_of_window {x y c : Int} (h1 : x < y) (h2 : y < x + c) : y % c ≠ x % c := by
  intro h
  rw [Int.emod_eq_emod_iff_emod_sub_eq_zero] at h
  have hd : c ∣ (y - x) := Int.dvd_of_emod_eq_zero h
  have := Int.eq_zero_of_dvd_of_nonneg_of_lt (by omega) (by omega) hd
  omega

theorem emod_range {x c : Int} (hc : 0 < c) : 0 ≤ x % c ∧ x % c < c :=
  ⟨Int.emod_nonneg _ (by omega), Int.emod_lt_of_pos _ hc⟩

theorem phys_some (l : List (Option α)) (hl : 0 < (l.length : Int)) (x : Int) :
    ∃ v, phys l x = some v :=
  getSlot_of_lt l (emod_range hl).1 (emod_range hl).2

theorem phys_set_self (l : List (Option α)) (hl : 0 < (l.length : Int)) (x : Int)
    (v : Option α) :
    phys (l.set (x % (l.length : Int)).toNat v) x = some v := by
  unfold phys
  rw [List.length_set]
  exact getSlot_set_self v (emod_range hl).1 (emod_range hl).2

theorem phys_set_ne (l : List (Option α)) (hl : 0 < (l.length : Int)) {x y : Int}
    (v : Option α) (hne : y % (l.length : Int) ≠ x % (l.length : Int)) :
    phys (l.set (x % (l.length : Int)).toNat v) y = phys l y := by
  unfold phys
  rw [List.length_set]
  exact getSlot_set_ne v (emod_range hl).1 (emod_range hl).1 hne

theorem phys_of_lt (l : List (Option α)) {x : Int} (h0 : 0 ≤ x) (h1 : x < (l.length : Int)) :
    phys l x = getSlot l x := by
  unfold phys
  rw [Int.emod_eq_of_lt h0 h1]

theorem At_eq_phys {d : Deque α} (hd : d.Wf) {j : Int} (h0 : 0 ≤ j) (h1 : j < d.size) :
    d.At j = phys d.data (d.begin + j) := by
  obtain ⟨hs0, hs1, hb0, hb1⟩ := hd
  unfold Deque.At phys
  rw [if_neg (by omega), goMod_of_nonneg (by omega) (by omega), Int.add_comm]
  rfl

/-- The re-linearisation of both resizing steps, on a deque whose `end` is
arbitrary: the new slice has the requested length and slot `j` holds the old
element `j`. -/
theorem relinearize_wf {d : Deque α} (hd : d.Wf) {n : Int} (hn : d.size ≤ n) :
    ∃ data', (makeSlice n).bind (fun data => d.copyLoop d.size.toNat 0 data) = some data' ∧
      (data'.length : Int) = n ∧
      ∀ j, 0 ≤ j → j < d.size → getSlot data' j = d.At j := by
  have hd' := hd
  obtain ⟨hs0, hs1, hb0, hb1⟩ := hd
  obtain ⟨data', h1, h2, -, h4⟩ := copyLoop_spec d hb0 d.size.toNat 0
    (List.replicate n.toNat none) (le_refl 0) (by simp; omega) (by omega)
  refine ⟨data', ?_, ?_, ?_⟩
  · rw [makeSlice_of_nonneg (by omega)]
    exact h1
  · rw [h2]; simp; omega
  · intro j hj0 hj1
    rw [At_eq_phys hd' hj0 hj1]
    exact h4 j hj0 (by omega)

theorem At_of_begin_zero {d : Deque α} (hb : d.begin = 0) (hs : d.size ≤ d.Capacity)
    {j : Int} (h0 : 0 ≤ j) (h1 : j < d.size) : d.At j = getSlot d.data j := by
  unfold Deque.At
  rw [if_neg (by omega), goMod_of_nonneg (by omega) (by omega), hb, Int.add_zero,
    Int.emod_eq_of_lt h0 (by omega)]
  rfl

theorem expand_wf {d : Deque α} (hd : d.Wf) :
    ∃ d', d.expandIfNeeded = some d' ∧ d'.Wf ∧ d'.size = d.size ∧
      d'.size < d'.Capacity ∧ d'.begin < d'.Capacity ∧ (∀ j, d'.At j = d.At j) ∧
      (d.size ≠ d.Capacity → d' = d) ∧
      (d.size = d.Capacity →
        d'.Capacity = (if d.size * 2 = 0 then 1 else d.size * 2) ∧ d'.begin = 0 ∧
        d'.end_ = d.size ∧ ∀ j, 0 ≤ j → j < d.size → getSlot d'.data j = d.At j) := by
  have hd' := hd
  obtain ⟨hs0, hs1, hb0, hb1⟩ := hd
  unfold Deque.expandIfNeeded
  by_cases hfull : d.size = d.Capacity
  · rw [if_pos hfull]
    have hn : d.size ≤ (if d.size * 2 = 0 then 1 else d.size * 2) := by split <;> omega
    have hn' : d.size < (if d.size * 2 = 0 then 1 else d.size * 2) := by split <;> omega
    obtain ⟨data', h1, h2, h3⟩ := relinearize_wf hd' hn
    simp only [Option.bind_eq_bind] at h1 ⊢
    generalize (if d.size * 2 = 0 then 1 else d.size * 2) = n at *
    cases hm : (makeSlice n : Option (List (Option α))) with
    | none => rw [hm] at h1; cases h1
    | some data0 =>
      rw [hm] at h1
      simp only [Option.some_bind] at h1 ⊢
      rw [h1]
      simp only [Option.some_bind]
      refine ⟨_, rfl, ?_, rfl, ?_, ?_, ?_, ?_, ?_⟩
      · simp only [Deque.Wf, Deque.Capacity]
        omega
      · simp only [Deque.Capacity]; omega
      · simp only [Deque.Capacity]; omega
      · intro j
        by_cases hj : 0 ≤ j ∧ j < d.size
        · rw [At_of_begin_zero (d := ⟨data', 0, d.size, d.size⟩) rfl
            (by simp only [Deque.Capacity]; omega) hj.1 hj.2]
          exact h3 j hj.1 hj.2
        · rw [At_of_not_lt (by simp only; omega), At_of_not_lt (by omega)]
      · intro hne; exact absurd hfull hne
      · intro _
        exact ⟨by simp only [Deque.Capacity]; exact h2, rfl, rfl, h3⟩
  · rw [if_neg hfull]
    exact ⟨d, rfl, hd', rfl, by omega, by omega, fun _ => rfl, fun _ => rfl,
      fun h => absurd h hfull⟩

theorem shrink_wf {d : Deque α} (hd : d.Wf) :
    ∃ d', d.shrinkIfNeeded = some d' ∧ d'.Wf ∧ d'.size = d.size ∧
      (∀ j, d'.At j = d.At j) ∧
      (¬ d.shrinkThreshold < d.Capacity → d' = d) ∧
      (d.shrinkThreshold < d.Capacity →
        d'.Capacity = d.Capacity / 2 ∧ d.size ≤ d.Capacity / 2 ∧ d'.begin = 0 ∧
        d'.end_ = d.size) := by
  have hd' := hd
  obtain ⟨hs0, hs1, hb0, hb1⟩ := hd
  unfold Deque.shrinkIfNeeded
  by_cases hsh : d.shrinkThreshold < d.Capacity
  · rw [if_pos hsh]
    have hthr : d.size * 2 ≤ d.shrinkThreshold := truncMul12_lower (by omega)
    have hdiv : Int.tdiv d.Capacity 2 = d.Capacity / 2 :=
      Int.tdiv_eq_ediv (by omega) (by omega)
    have hn : d.size ≤ Int.tdiv d.Capacity 2 := by rw [hdiv]; omega
    obtain ⟨data', h1, h2, h3⟩ := relinearize_wf hd' hn
    simp only [Option.bind_eq_bind] at h1 ⊢
    rw [hdiv] at h1 h2 hn ⊢
    generalize d.Capacity / 2 = n at *
    cases hm : (makeSlice n : Option (List (Option α))) with
    | none => rw [hm] at h1; cases h1
    | some data0 =>
      rw [hm] at h1
      simp only [Option.some_bind] at h1 ⊢
      rw [h1]
      simp only [Option.some_bind]
      refine ⟨_, rfl, ?_, rfl, ?_, ?_, ?_⟩
      · simp only [Deque.Wf, Deque.Capacity]
        omega
      · intro j
        by_cases hj : 0 ≤ j ∧ j < d.size
        · rw [At_of_begin_zero (d := ⟨data', 0, d.size, d.size⟩) rfl
            (by simp only [Deque.Capacity]; omega) hj.1 hj.2]
          exact h3 j hj.1 hj.2
        · rw [At_of_not_lt (by simp only; omega), At_of_not_lt (by omega)]
      · intro hne; exact absurd hsh hne
      · intro _
        exact ⟨by simp only [Deque.Capacity]; exact h2, hn, rfl, rfl⟩
  · rw [if_neg hsh]
    exact ⟨d, rfl, hd', rfl, fun _ => rfl, fun _ => rfl, fun h => absurd h hsh⟩

theorem excessBits_upper (fuel : Nat) : ∀ n : Nat, n < 2 ^ (53 + fuel) →
    n / 2 ^ excessBits fuel n < 2 ^ 53 := by
  induction fuel with
  | zero =>
    intro n hn
    simpa [excessBits] using hn
  | succ f ih =>
    intro n hn
    unfold excessBits
    split
    · rename_i h
      simpa using h
    · have h2 : n / 2 < 2 ^ (53 + f) := by
        have e : (2:Nat) ^ (53 + (f + 1)) = 2 ^ (53 + f) * 2 := by
          rw [← Nat.add_assoc, Nat.pow_succ]
        rw [e] at hn
        omega
      have := ih (n / 2) h2
      rw [Nat.pow_succ, Nat.mul_comm, ← Nat.div_div_eq_div_mul]
      exact this

theorem excessBits_self_upper (n : Nat) : n < 2 ^ 53 * 2 ^ excessBits n n := by
  have h1 : n < 2 ^ (53 + n) :=
    lt_of_lt_of_le (Nat.lt_two_pow n) (Nat.pow_le_pow_right (by norm_num) (by omega))
  have h2 := excessBits_upper n n h1
  rwa [Nat.div_lt_iff_lt_mul (by positivity)] at h2

/-- The rounding `roundTo53 n` is a multiple of the unit `2 ^ excessBits n n`, at
most half a unit away from `n`, and the unit is the right one: `n` has at most
53 significant bits above it, and exactly 53 when the unit is not 1. -/
theorem roundTo53_near (n : Nat) :
    2 ^ excessBits n n ∣ roundTo53 n ∧
    2 * roundTo53 n ≤ 2 * n + 2 ^ excessBits n n ∧
    2 * n ≤ 2 * roundTo53 n + 2 ^ excessBits n n ∧
    n < 2 ^ 53 * 2 ^ excessBits n n ∧
    (excessBits n n = 0 ∨ 2 ^ 52 * 2 ^ excessBits n n ≤ n) := by
  have hup := excessBits_self_upper n
  have hlow : excessBits n n = 0 ∨ 2 ^ 52 * 2 ^ excessBits n n ≤ n := by
    rcases excessBits_lower n n with h | h
    · exact Or.inl h
    · right
      rwa [Nat.pow_add] at h
  unfold roundTo53
  simp only
  generalize excessBits n n = sh at *
  by_cases hsh : sh = 0
  · subst hsh
    simp only [pow_zero, Nat.mul_one] at hup
    simp only [pow_zero, if_true, Nat.one_dvd, true_and, Nat.mul_one, true_or, and_true]
    omega
  · rw [if_neg hsh]
    refine ⟨Dvd.intro_left _ rfl, ?_, ?_, hup, hlow⟩
    · have hdm := Nat.div_add_mod n (2 ^ sh)
      have hlt : n % 2 ^ sh < 2 ^ sh := Nat.mod_lt _ (by positivity)
      have hhalf : 2 * 2 ^ (sh - 1) = 2 ^ sh := by
        conv_rhs => rw [show sh = (sh - 1) + 1 by omega]
        rw [Nat.pow_succ]; ring
      rw [Nat.mul_comm] at hdm
      split
      · rename_i hc
        rw [Nat.add_mul, Nat.one_mul]
        generalize n / 2 ^ sh * 2 ^ sh = X at hdm ⊢
        generalize n % 2 ^ sh = r at *
        generalize (2:Nat) ^ sh = P at *
        generalize (2:Nat) ^ (sh - 1) = H at *
        omega
      · rename_i hc
        generalize n / 2 ^ sh * 2 ^ sh = X at hdm ⊢
        generalize n % 2 ^ sh = r at *
        generalize (2:Nat) ^ sh = P at *
        omega
    · have hdm := Nat.div_add_mod n (2 ^ sh)
      have hlt : n % 2 ^ sh < 2 ^ sh := Nat.mod_lt _ (by positivity)
      have hhalf : 2 * 2 ^ (sh - 1) = 2 ^ sh := by
        conv_rhs => rw [show sh = (sh - 1) + 1 by omega]
        rw [Nat.pow_succ]; ring
      rw [Nat.mul_comm] at hdm
      split
      · rename_i hc
        rw [Nat.add_mul, Nat.one_mul]
        generalize n / 2 ^ sh * 2 ^ sh = X at hdm ⊢
        generalize n % 2 ^ sh = r at *
        generalize (2:Nat) ^ sh = P at *
        omega
      · rename_i hc
        generalize n / 2 ^ sh * 2 ^ sh = X at hdm ⊢
        generalize n % 2 ^ sh = r at *
        generalize (2:Nat) ^ sh = P at *
        generalize (2:Nat) ^ (sh - 1) = H at *
        omega

theorem roundTo53_of_lt {n : Nat} (h : n < 2 ^ 53) : roundTo53 n = n := by
  have h0 : excessBits n n = 0 := by
    cases n with
    | zero => rfl
    | succ m => unfold excessBits; rw [if_pos h]
  unfold roundTo53
  simp [h0]

theorem le_of_dvd_of_lt_add {P R A : Nat} (hR : P ∣ R) (hA : P ∣ A) (h : A < R + P) :
    A ≤ R := by
  obtain ⟨a, rfl⟩ := hR
  obtain ⟨b, rfl⟩ := hA
  have h' : P * b < P * (a + 1) := by rw [Nat.mul_add, Nat.mul_one]; exact h
  have := Nat.lt_of_mul_lt_mul_left h'
  exact Nat.mul_le_mul_left P (by omega)

/-- For `n < 2^51` the binary64 evaluation of `int(float64(n) * 1.2)` is the exact
integer part of `6 n / 5`. -/
theorem truncMul12Nat_exact {n : Nat} (hn : n < 2 ^ 51) : truncMul12Nat n = 6 * n / 5 := by
  unfold truncMul12Nat float12Mantissa
  rw [roundTo53_of_lt (lt_trans hn (by norm_num))]
  obtain ⟨hdvd, hle, hge, hup, hlow⟩ := roundTo53_near (n * 5404319552844595)
  have hshle : excessBits (n * 5404319552844595) (n * 5404319552844595) ≤ 52 := by
    rcases hlow with h | h
    · omega
    · by_contra hc
      have : (2:Nat) ^ 53 ≤ 2 ^ excessBits (n * 5404319552844595) (n * 5404319552844595) :=
        Nat.pow_le_pow_right (by norm_num) (by omega)
      have e51 : (2:Nat) ^ 51 = 2251799813685248 := by norm_num
      have e52 : (2:Nat) ^ 52 = 4503599627370496 := by norm_num
      have e53 : (2:Nat) ^ 53 = 9007199254740992 := by norm_num
      rw [e51] at hn
      rw [e52] at h
      rw [e53] at this
      generalize (2:Nat) ^ excessBits (n * 5404319552844595) (n * 5404319552844595) = P at *
      omega
  have hP52 : 2 ^ excessBits (n * 5404319552844595) (n * 5404319552844595) ∣ (2:Nat) ^ 52 :=
    Nat.pow_dvd_pow 2 hshle
  have hPA : 2 ^ excessBits (n * 5404319552844595) (n * 5404319552844595)
      ∣ 6 * n / 5 * 2 ^ 52 := Dvd.dvd.mul_left hP52 _
  have hPpos : 0 < 2 ^ excessBits (n * 5404319552844595) (n * 5404319552844595) := by
    positivity
  have hP1 : excessBits (n * 5404319552844595) (n * 5404319552844595) = 0 →
      2 ^ excessBits (n * 5404319552844595) (n * 5404319552844595) = 1 := by
    intro h; rw [h]; rfl
  generalize roundTo53 (n * 5404319552844595) = R at *
  have e51 : (2:Nat) ^ 51 = 2251799813685248 := by norm_num
  have e52 : (2:Nat) ^ 52 = 4503599627370496 := by norm_num
  have e53 : (2:Nat) ^ 53 = 9007199254740992 := by norm_num
  rw [e51] at hn
  rw [e52] at hlow hPA ⊢
  rw [e53] at hup
  have hlow' : 2 ^ excessBits (n * 5404319552844595) (n * 5404319552844595) = 1 ∨
      4503599627370496 * 2 ^ excessBits (n * 5404319552844595) (n * 5404319552844595)
        ≤ n * 5404319552844595 := by
    rcases hlow with h | h
    · exact Or.inl (hP1 h)
    · exact Or.inr h
  clear hlow hP1 hshle hP52
  generalize (2:Nat) ^ excessBits (n * 5404319552844595) (n * 5404319552844595) = P at *
  -- `A = ⌊6n/5⌋ · 2^52` is a multiple of the unit `P`
  have hA1 : 6 * n / 5 * 4503599627370496 ≤ R := by
    apply le_of_dvd_of_lt_add hdvd hPA
    omega
  have hA2 : R < 6 * n / 5 * 4503599627370496 + 4503599627370496 := by
    by_cases hr : 6 * n % 5 = 0
    · have hRA : R ≤ 6 * n / 5 * 4503599627370496 := by
        apply le_of_dvd_of_lt_add hPA hdvd
        omega
      omega
    · omega
  omega

theorem nextIndex_emod (d : Deque α) (hc : 0 < d.Capacity) (x : Int) :
    d.nextIndex (x % d.Capacity) = some ((x + 1) % d.Capacity) := by
  unfold Deque.nextIndex
  rw [goMod_of_nonneg (by have := (emod_range (x := x) hc).1; omega) hc, Int.emod_add_emod]

theorem preIndex_emod (d : Deque α) (hc : 0 < d.Capacity) (x : Int) :
    d.preIndex (x % d.Capacity) = some ((x - 1) % d.Capacity) := by
  unfold Deque.preIndex
  rw [goMod_of_nonneg (by have := (emod_range (x := x) hc).1; omega) hc]
  have e : x % d.Capacity - 1 + d.Capacity = x % d.Capacity + (-1 + d.Capacity) := by ring
  rw [e, Int.emod_add_emod]
  have e2 : x + (-1 + d.Capacity) = (x - 1) + d.Capacity := by ring
  rw [e2, Int.add_emod_self]

theorem goMod_emod_add (c : Int) (hc : 0 < c) (x e : Int) (he : 0 ≤ e) :
    goMod (x % c + e + c) c = some ((x + e) % c) := by
  rw [goMod_of_nonneg (by have := (emod_range (x := x) hc).1; omega) hc, Int.add_emod_self,
    Int.emod_add_emod]

theorem goMod_emod_sub (c : Int) (hc : 0 < c) (x e : Int) (he : e ≤ c) :
    goMod (x % c - e + c) c = some ((x - e) % c) := by
  rw [goMod_of_nonneg (by have := (emod_range (x := x) hc).1; omega) hc, Int.add_emod_self]
  have e1 : x % c - e = x % c + (-e) := by ring
  rw [e1, Int.emod_add_emod]
  rfl

theorem setSlot_emod (l : List (Option α)) (hl : 0 < (l.length : Int)) (x : Int)
    (v : Option α) :
    setSlot l (x % (l.length : Int)) v = some (l.set (x % (l.length : Int)).toNat v) :=
  setSlot_of_lt v (emod_range hl).1 (emod_range hl).2

theorem eraseRightLoop_spec (e : Int) (he : 1 ≤ e) (k : Nat) :
    ∀ (d : Deque α) (x : Int), 0 < d.Capacity → (k : Int) + e ≤ d.Capacity →
    ∃ d', Deque.eraseRightLoop e k d (x % d.Capacity) = some (d', (x + k) % d.Capacity) ∧
      d.SameShape d' ∧
      ∀ y, x ≤ y → y < x + d.Capacity →
        phys d'.data y = if y < x + k then phys d.data (y + e) else phys d.data y := by
  induction k with
  | zero =>
    intro d x hc hk
    refine ⟨d, by simp [Deque.eraseRightLoop], ⟨rfl, rfl, rfl, rfl⟩, ?_⟩
    intro y h1 h2
    rw [if_neg (by simp; omega)]
  | succ k ih =>
    intro d x hc hk
    have hl : 0 < (d.data.length : Int) := hc
    obtain ⟨v, hv⟩ := phys_some d.data hl (x + e)
    have hc1 : (⟨d.data.set (x % d.Capacity).toNat v, d.begin, d.end_, d.size⟩ :
        Deque α).Capacity = d.Capacity := by
      simp only [Deque.Capacity, List.length_set]
    obtain ⟨d', h1, ⟨s1, s2, s3, s4⟩, h3⟩ :=
      ih ⟨d.data.set (x % d.Capacity).toNat v, d.begin, d.end_, d.size⟩ (x + 1)
        (by rw [hc1]; exact hc) (by rw [hc1]; push_cast at hk; omega)
    rw [hc1] at h1 h3
    simp only [List.length_set] at s1
    refine ⟨d', ?_, ⟨s1, s2, s3, s4⟩, ?_⟩
    · unfold Deque.eraseRightLoop
      have hg := goMod_emod_add d.Capacity hc x e (by omega)
      have hv' : getSlot d.data ((x + e) % d.Capacity) = some v := hv
      have hs := setSlot_emod d.data hl x v
      have hn := nextIndex_emod
        ⟨d.data.set (x % d.Capacity).toNat v, d.begin, d.end_, d.size⟩
        (by rw [hc1]; exact hc) x
      rw [hc1] at hn
      simp only [Deque.Capacity] at hg hv' hs hn h1 ⊢
      simp only [hg, hv', hs, hn, Option.bind_eq_bind, Option.some_bind]
      rw [h1]
      congr 3
      push_cast
      ring
    · intro y hy1 hy2
      have hk' : (k : Int) + 1 + e ≤ d.Capacity := by push_cast at hk; omega
      have hcl : d.Capacity = (d.data.length : Int) := rfl
      by_cases hyx : y = x
      · subst hyx
        rw [if_pos (by push_cast; omega)]
        have hp : phys d'.data y = phys d'.data (y + d.Capacity) :=
          (phys_add_of_len (by rw [s1]; rfl) y).symm
        rw [hp, h3 (y + d.Capacity) (by omega) (by omega), if_neg (by omega)]
        simp only
        rw [phys_add_of_len (by rw [List.length_set]; rfl), hcl,
          phys_set_self d.data hl y v, hv]
      · rw [h3 y (by omega) (by omega)]
        simp only
        by_cases hlt : y < x + 1 + k
        · rw [if_pos hlt, if_pos (by push_cast; omega), hcl]
          exact phys_set_ne d.data hl v (emod_ne_of_window (by omega) (by rw [← hcl]; omega))
        · rw [if_neg hlt, if_neg (by push_cast; omega), hcl]
          exact phys_set_ne d.data hl v (emod_ne_of_window (by omega) (by rw [← hcl]; omega))

theorem insertFrontLoop_spec (k : Nat) :
    ∀ (d : Deque α) (x : Int), 0 < d.Capacity → (k : Int) + 1 ≤ d.Capacity →
    ∃ d', Deque.insertFrontLoop k d (x % d.Capacity) = some (d', (x + k) % d.Capacity) ∧
      d.SameShape d' ∧
      ∀ y, x ≤ y → y < x + d.Capacity →
        phys d'.data y = if y < x + k then phys d.data (y + 1) else phys d.data y := by
  induction k with
  | zero =>
    intro d x hc hk
    refine ⟨d, by simp [Deque.insertFrontLoop], ⟨rfl, rfl, rfl, rfl⟩, ?_⟩
    intro y h1 h2
    rw [if_neg (by simp; omega)]
  | succ k ih =>
    intro d x hc hk
    have hl : 0 < (d.data.length : Int) := hc
    obtain ⟨v, hv⟩ := phys_some d.data hl (x + 1)
    have hc1 : (⟨d.data.set (x % d.Capacity).toNat v, d.begin, d.end_, d.size⟩ :
        Deque α).Capacity = d.Capacity := by
      simp only [Deque.Capacity, List.length_set]
    obtain ⟨d', h1, ⟨s1, s2, s3, s4⟩, h3⟩ :=
      ih ⟨d.data.set (x % d.Capacity).toNat v, d.begin, d.end_, d.size⟩ (x + 1)
        (by rw [hc1]; exact hc) (by rw [hc1]; push_cast at hk; omega)
    rw [hc1] at h1 h3
    simp only [List.length_set] at s1
    refine ⟨d', ?_, ⟨s1, s2, s3, s4⟩, ?_⟩
    · unfold Deque.insertFrontLoop
      have hg := nextIndex_emod d hc x
      have hv' : getSlot d.data ((x + 1) % d.Capacity) = some v := hv
      have hs := setSlot_emod d.data hl x v
      have hn := nextIndex_emod
        ⟨d.data.set (x % d.Capacity).toNat v, d.begin, d.end_, d.size⟩
        (by rw [hc1]; exact hc) x
      rw [hc1] at hn
      simp only [Deque.Capacity] at hg hv' hs hn h1 ⊢
      simp only [hg, hv', hs, hn, Option.bind_eq_bind, Option.some_bind]
      rw [h1]
      congr 3
      push_cast
      ring
    · intro y hy1 hy2
      have hk' : (k : Int) + 1 + 1 ≤ d.Capacity := by push_cast at hk; omega
      have hcl : d.Capacity = (d.data.length : Int) := rfl
      by_cases hyx : y = x
      · subst hyx
        rw [if_pos (by push_cast; omega)]
        have hp : phys d'.data y = phys d'.data (y + d.Capacity) :=
          (phys_add_of_len (by rw [s1]; rfl) y).symm
        rw [hp, h3 (y + d.Capacity) (by omega) (by omega), if_neg (by omega)]
        simp only
        rw [phys_add_of_len (by rw [List.length_set]; rfl), hcl,
          phys_set_self d.data hl y v, hv]
      · rw [h3 y (by omega) (by omega)]
        simp only
        by_cases hlt : y < x + 1 + k
        · rw [if_pos hlt, if_pos (by push_cast; omega), hcl]
          exact phys_set_ne d.data hl v (emod_ne_of_window (by omega) (by rw [← hcl]; omega))
        · rw [if_neg hlt, if_neg (by push_cast; omega), hcl]
          exact phys_set_ne d.data hl v (emod_ne_of_window (by omega) (by rw [← hcl]; omega))

theorem eraseLeftLoop_spec (e : Int) (he : 1 ≤ e) (k : Nat) :
    ∀ (d : Deque α) (x : Int), 0 < d.Capacity → (k : Int) + e ≤ d.Capacity →
    ∃ d', Deque.eraseLeftLoop e k d (x % d.Capacity) = some (d', (x - k) % d.Capacity) ∧
      d.SameShape d' ∧
      ∀ y, x - d.Capacity < y → y ≤ x →
        phys d'.data y = if x - k < y then phys d.data (y - e) else phys d.data y := by
  induction k with
  | zero =>
    intro d x hc hk
    refine ⟨d, by simp [Deque.eraseLeftLoop], ⟨rfl, rfl, rfl, rfl⟩, ?_⟩
    intro y h1 h2
    rw [if_neg (by simp; omega)]
  | succ k ih =>
    intro d x hc hk
    have hl : 0 < (d.data.length : Int) := hc
    obtain ⟨v, hv⟩ := phys_some d.data hl (x - e)
    have hc1 : (⟨d.data.set (x % d.Capacity).toNat v, d.begin, d.end_, d.size⟩ :
        Deque α).Capacity = d.Capacity := by
      simp only [Deque.Capacity, List.length_set]
    obtain ⟨d', h1, ⟨s1, s2, s3, s4⟩, h3⟩ :=
      ih ⟨d.data.set (x % d.Capacity).toNat v, d.begin, d.end_, d.size⟩ (x - 1)
        (by rw [hc1]; exact hc) (by rw [hc1]; push_cast at hk; omega)
    rw [hc1] at h1 h3
    simp only [List.length_set] at s1
    refine ⟨d', ?_, ⟨s1, s2, s3, s4⟩, ?_⟩
    · unfold Deque.eraseLeftLoop
      have hg := goMod_emod_sub d.Capacity hc x e (by push_cast at hk; omega)
      have hv' : getSlot d.data ((x - e) % d.Capacity) = some v := hv
      have hs := setSlot_emod d.data hl x v
      have hn := preIndex_emod
        ⟨d.data.set (x % d.Capacity).toNat v, d.begin, d.end_, d.size⟩
        (by rw [hc1]; exact hc) x
      rw [hc1] at hn
      simp only [Deque.Capacity] at hg hv' hs hn h1 ⊢
      simp only [hg, hv', hs, hn, Option.bind_eq_bind, Option.some_bind]
      rw [h1]
      congr 3
      push_cast
      ring
    · intro y hy1 hy2
      have hk' : (k : Int) + 1 + e ≤ d.Capacity := by push_cast at hk; omega
      have hcl : d.Capacity = (d.data.length : Int) := rfl
      by_cases hyx : y = x
      · subst hyx
        rw [if_pos (by push_cast; omega)]
        have hp : phys d'.data y = phys d'.data (y - d.Capacity) :=
          (phys_sub_of_len (by rw [s1]; rfl) y).symm
        rw [hp, h3 (y - d.Capacity) (by omega) (by omega), if_neg (by omega)]
        simp only
        rw [phys_sub_of_len (by rw [List.length_set]; rfl), hcl,
          phys_set_self d.data hl y v, hv]
      · rw [h3 y (by omega) (by omega)]
        simp only
        by_cases hlt : x - 1 - k < y
        · rw [if_pos hlt, if_pos (by push_cast; omega), hcl]
          exact phys_set_ne d.data hl v
            (emod_ne_of_window (by omega) (by rw [← hcl]; omega)).symm
        · rw [if_neg hlt, if_neg (by push_cast; omega), hcl]
          exact phys_set_ne d.data hl v
            (emod_ne_of_window (by omega) (by rw [← hcl]; omega)).symm

theorem insertBackLoop_eq (k : Nat) : ∀ (d : Deque α) (idx : Int),
    Deque.insertBackLoop k d idx = Deque.eraseLeftLoop 1 k d idx := by
  induction k with
  | zero => intro d idx; rfl
  | succ k ih =>
    intro d idx
    simp only [Deque.insertBackLoop, Deque.eraseLeftLoop, Deque.preIndex, ih]

theorem clearRightLoop_spec (k : Nat) :
    ∀ (d : Deque α) (x : Int), 0 < d.Capacity → (k : Int) ≤ d.Capacity →
    ∃ d' i, Deque.clearRightLoop k d (x % d.Capacity) = some (d', i) ∧
      d.SameShape d' ∧
      ∀ y, x ≤ y → y < x + d.Capacity →
        phys d'.data y = if y < x + k then some none else phys d.data y := by
  induction k with
  | zero =>
    intro d x hc hk
    refine ⟨d, x % d.Capacity, rfl, ⟨rfl, rfl, rfl, rfl⟩, ?_⟩
    intro y h1 h2
    rw [if_neg (by simp; omega)]
  | succ k ih =>
    intro d x hc hk
    have hl : 0 < (d.data.length : Int) := hc
    have hc1 : (⟨d.data.set (x % d.Capacity).toNat none, d.begin, d.end_, d.size⟩ :
        Deque α).Capacity = d.Capacity := by
      simp only [Deque.Capacity, List.length_set]
    obtain ⟨d', i, h1, ⟨s1, s2, s3, s4⟩, h3⟩ :=
      ih ⟨d.data.set (x % d.Capacity).toNat none, d.begin, d.end_, d.size⟩ (x + 1)
        (by rw [hc1]; exact hc) (by rw [hc1]; push_cast at hk; omega)
    rw [hc1] at h1 h3
    simp only [List.length_set] at s1
    refine ⟨d', i, ?_, ⟨s1, s2, s3, s4⟩, ?_⟩
    · unfold Deque.clearRightLoop
      have hs := setSlot_emod d.data hl x none
      have hn := nextIndex_emod
        ⟨d.data.set (x % d.Capacity).toNat none, d.begin, d.end_, d.size⟩
        (by rw [hc1]; exact hc) x
      rw [hc1] at hn
      simp only [Deque.Capacity] at hs hn h1 ⊢
      simp only [hs, hn, Option.bind_eq_bind, Option.some_bind]
      rw [h1]
    · intro y hy1 hy2
      have hk' : (k : Int) + 1 ≤ d.Capacity := by push_cast at hk; omega
      have hcl : d.Capacity = (d.data.length : Int) := rfl
      by_cases hyx : y = x
      · subst hyx
        rw [if_pos (by push_cast; omega)]
        have hp : phys d'.data y = phys d'.data (y + d.Capacity) :=
          (phys_add_of_len (by rw [s1]; rfl) y).symm
        rw [hp, h3 (y + d.Capacity) (by omega) (by omega), if_neg (by omega)]
        simp only
        rw [phys_add_of_len (by rw [List.length_set]; rfl), hcl,
          phys_set_self d.data hl y none]
      · rw [h3 y (by omega) (by omega)]
        simp only
        by_cases hlt : y < x + 1 + k
        · rw [if_pos hlt, if_pos (by push_cast; omega)]
        · rw [if_neg hlt, if_neg (by push_cast; omega), hcl]
          exact phys_set_ne d.data hl none (emod_ne_of_window (by omega) (by rw [← hcl]; omega))

theorem clearLeftLoop_spec (k : Nat) :
    ∀ (d : Deque α) (x : Int), 0 < d.Capacity → (k : Int) ≤ d.Capacity →
    ∃ d' i, Deque.clearLeftLoop k d (x % d.Capacity) = some (d', i) ∧
      d.SameShape d' ∧
      ∀ y, x - d.Capacity < y → y ≤ x →
        phys d'.data y = if x - k < y then some none else phys d.data y := by
  induction k with
  | zero =>
    intro d x hc hk
    refine ⟨d, x % d.Capacity, rfl, ⟨rfl, rfl, rfl, rfl⟩, ?_⟩
    intro y h1 h2
    rw [if_neg (by simp; omega)]
  | succ k ih =>
    intro d x hc hk
    have hl : 0 < (d.data.length : Int) := hc
    have hc1 : (⟨d.data.set (x % d.Capacity).toNat none, d.begin, d.end_, d.size⟩ :
        Deque α).Capacity = d.Capacity := by
      simp only [Deque.Capacity, List.length_set]
    obtain ⟨d', i, h1, ⟨s1, s2, s3, s4⟩, h3⟩ :=
      ih ⟨d.data.set (x % d.Capacity).toNat none, d.begin, d.end_, d.size⟩ (x - 1)
        (by rw [hc1]; exact hc) (by rw [hc1]; push_cast at hk; omega)
    rw [hc1] at h1 h3
    simp only [List.length_set] at s1
    refine ⟨d', i, ?_, ⟨s1, s2, s3, s4⟩, ?_⟩
    · unfold Deque.clearLeftLoop
      have hs := setSlot_emod d.data hl x none
      have hn := preIndex_emod
        ⟨d.data.set (x % d.Capacity).toNat none, d.begin, d.end_, d.size⟩
        (by rw [hc1]; exact hc) x
      rw [hc1] at hn
      simp only [Deque.Capacity] at hs hn h1 ⊢
      simp only [hs, hn, Option.bind_eq_bind, Option.some_bind]
      rw [h1]
    · intro y hy1 hy2
      have hk' : (k : Int) + 1 ≤ d.Capacity := by push_cast at hk; omega
      have hcl : d.Capacity = (d.data.length : Int) := rfl
      by_cases hyx : y = x
      · subst hyx
        rw [if_pos (by push_cast; omega)]
        have hp : phys d'.data y = phys d'.data (y - d.Capacity) :=
          (phys_sub_of_len (by rw [s1]; rfl) y).symm
        rw [hp, h3 (y - d.Capacity) (by omega) (by omega), if_neg (by omega)]
        simp only
        rw [phys_sub_of_len (by rw [List.length_set]; rfl), hcl,
          phys_set_self d.data hl y none]
      · rw [h3 y (by omega) (by omega)]
        simp only
        by_cases hlt : x - 1 - k < y
        · rw [if_pos hlt, if_pos (by push_cast; omega)]
        · rw [if_neg hlt, if_neg (by push_cast; omega), hcl]
          exact phys_set_ne d.data hl none
            (emod_ne_of_window (by omega) (by rw [← hcl]; omega)).symm

/-- The deque `EraseRange` hands to `shrinkIfNeeded`, for a range that is in
bounds and not empty. -/
theorem EraseRange_before_shrink {d : Deque α} (hd : d.Wf) {f l : Int}
    (hf : 0 ≤ f) (hfl : f < l) (hl : l ≤ d.size) :
    ∃ d5 : Deque α,
      d.EraseRange f l = d5.shrinkIfNeeded.bind (fun d' => some (d', GoError.nil)) ∧
      d5.Wf ∧ d5.size = d.size - (l - f) ∧ d5.Capacity = d.Capacity ∧
      (d.EndNear → d5.EndNear) ∧
      (∀ i, 0 ≤ i → i < f → d5.At i = d.At i) ∧
      (∀ i, f ≤ i → i < d.size - (l - f) → d5.At i = d.At (i + (l - f))) := by
  have hd' := hd
  obtain ⟨hs0, hs1, hb0, hb1⟩ := hd
  have hc : 0 < d.Capacity := by omega
  have hbl : d.begin < d.Capacity := by omega
  have hcl : d.Capacity = (d.data.length : Int) := rfl
  unfold Deque.EraseRange
  rw [if_neg (by omega), if_neg (by omega)]
  by_cases hbr : f ≤ d.size - l
  · -- the left block moves up
    have hp : d.preIndex l = some ((l - 1) % d.Capacity) := by
      unfold Deque.preIndex
      rw [goMod_of_nonneg (by omega) hc, Int.add_emod_self]
    have hidx : goMod (d.begin + (l - 1) % d.Capacity) d.Capacity
        = some ((d.begin + l - 1) % d.Capacity) := by
      rw [goMod_of_nonneg (by have := (emod_range (x := l - 1) hc).1; omega) hc,
        Int.add_emod_emod]
      congr 2
      ring
    obtain ⟨d2, hloop, ⟨s1, s2, s3, s4⟩, H2⟩ :=
      eraseLeftLoop_spec (l - f) (by omega) f.toNat d (d.begin + l - 1) hc
        (by rw [Int.toNat_of_nonneg hf]; omega)
    rw [Int.toNat_of_nonneg hf] at hloop H2
    have hc2 : d2.Capacity = d.Capacity := by simp only [Deque.Capacity, s1]
    have hnext : d2.nextIndex ((d.begin + l - 1 - f) % d.Capacity)
        = some ((d.begin + (l - f)) % d.Capacity) := by
      have := nextIndex_emod d2 (by rw [hc2]; exact hc) (d.begin + l - 1 - f)
      rw [hc2] at this
      rw [this]
      congr 2
      ring
    have hc3 : (⟨d2.data, (d.begin + (l - f)) % d.Capacity, d2.end_, d2.size⟩ :
        Deque α).Capacity = d.Capacity := hc2
    obtain ⟨d4, i4, hclear, ⟨t1, t2, t3, t4⟩, H4⟩ :=
      clearLeftLoop_spec (l - f).toNat
        ⟨d2.data, (d.begin + (l - f)) % d.Capacity, d2.end_, d2.size⟩
        (d.begin + l - 1 - f) (by rw [hc3]; exact hc)
        (by rw [hc3, Int.toNat_of_nonneg (by omega)]; omega)
    rw [hc3] at hclear H4
    rw [Int.toNat_of_nonneg (by omega)] at H4
    simp only at t1 t2 t3 t4 H4
    have hlen4 : (d4.data.length : Int) = d.Capacity := by rw [t1, s1]; rfl
    have hlen2 : (d2.data.length : Int) = d.Capacity := by rw [s1]; rfl
    refine ⟨⟨d4.data, d4.begin, d4.end_, d4.size - (l - f)⟩, ?_, ?_, ?_, ?_, ?_, ?_, ?_⟩
    · simp only [if_pos hbr, hp, hidx, hloop, hnext, hclear, Option.bind_eq_bind,
        Option.some_bind, Option.pure_def]
    · have := (emod_range (x := d.begin + (l - f)) hc)
      simp only [Deque.Wf, Deque.Capacity, t1, t2, t4, s1, s4] at *
      omega
    · simp only [t4, s4]
    · simp only [Deque.Capacity, t1, s1]
    · rintro ⟨e0, e1, e2⟩
      simp only [Deque.EndNear, Deque.Capacity, t1, t2, t3, t4, s1, s3, s4] at *
      refine ⟨e0, e1, ?_⟩
      rw [e2, Int.emod_add_emod]
      congr 1
      ring
    · intro i hi0 hi1
      have hy : d.begin + (l - f) + i - d.Capacity = d.begin + (l - f) + i - d.Capacity := rfl
      rw [At_eq_phys (d := ⟨d4.data, d4.begin, d4.end_, d4.size - (l - f)⟩)
        (by have := (emod_range (x := d.begin + (l - f)) hc)
            simp only [Deque.Wf, Deque.Capacity, t1, t2, t4, s1, s4] at *
            omega) hi0 (by simp only [t4, s4]; omega),
        At_eq_phys hd' hi0 (by omega)]
      simp only [t2]
      rw [← hlen4, phys_emod_add, ← phys_sub_of_len hlen4,
        H4 _ (by omega) (by omega), if_neg (by omega), phys_sub_of_len hlen2,
        H2 _ (by omega) (by omega), if_pos (by omega)]
      congr 1
      ring
    · intro i hi0 hi1
      rw [At_eq_phys (d := ⟨d4.data, d4.begin, d4.end_, d4.size - (l - f)⟩)
        (by have := (emod_range (x := d.begin + (l - f)) hc)
            simp only [Deque.Wf, Deque.Capacity, t1, t2, t4, s1, s4] at *
            omega) (by omega) (by simp only [t4, s4]; omega),
        At_eq_phys hd' (by omega) (by omega)]
      simp only [t2]
      rw [← hlen4, phys_emod_add, ← phys_sub_of_len hlen4,
        H4 _ (by omega) (by omega), if_neg (by omega),
        H2 _ (by omega) (by omega), if_neg (by omega), phys_sub_of_len hcl.symm]
      congr 1
      ring
  · -- the right block moves down
    have hidx : goMod (d.begin + f) d.Capacity = some ((d.begin + f) % d.Capacity) :=
      goMod_of_nonneg (by omega) hc
    obtain ⟨d2, hloop, ⟨s1, s2, s3, s4⟩, H2⟩ :=
      eraseRightLoop_spec (l - f) (by omega) (d.size - l).toNat d (d.begin + f) hc
        (by rw [Int.toNat_of_nonneg (by omega)]; omega)
    rw [Int.toNat_of_nonneg (by omega)] at hloop H2
    have hc2 : d2.Capacity = d.Capacity := by simp only [Deque.Capacity, s1]
    have hc3 : (⟨d2.data, d2.begin, (d.begin + f + (d.size - l)) % d.Capacity, d2.size⟩ :
        Deque α).Capacity = d.Capacity := hc2
    obtain ⟨d4, i4, hclear, ⟨t1, t2, t3, t4⟩, H4⟩ :=
      clearRightLoop_spec (l - f).toNat
        ⟨d2.data, d2.begin, (d.begin + f + (d.size - l)) % d.Capacity, d2.size⟩
        (d.begin + f + (d.size - l)) (by rw [hc3]; exact hc)
        (by rw [hc3, Int.toNat_of_nonneg (by omega)]; omega)
    rw [hc3] at hclear H4
    rw [Int.toNat_of_nonneg (by omega)] at H4
    simp only at t1 t2 t3 t4 H4
    have hlen4 : (d4.data.length : Int) = d.Capacity := by rw [t1, s1]; rfl
    have hlen2 : (d2.data.length : Int) = d.Capacity := by rw [s1]; rfl
    refine ⟨⟨d4.data, d4.begin, d4.end_, d4.size - (l - f)⟩, ?_, ?_, ?_, ?_, ?_, ?_, ?_⟩
    · simp only [if_neg hbr, hidx, hloop, hclear, Option.bind_eq_bind,
        Option.some_bind, Option.pure_def]
    · simp only [Deque.Wf, Deque.Capacity, t1, t2, t4, s1, s2, s4] at *
      omega
    · simp only [t4, s4]
    · simp only [Deque.Capacity, t1, s1]
    · intro _
      have := (emod_range (x := d.begin + f + (d.size - l)) hc)
      simp only [Deque.EndNear, Deque.Capacity, t1, t2, t3, t4, s1, s2, s4] at *
      refine ⟨this.1, by omega, ?_⟩
      rw [Int.emod_emod]
      congr 1
      ring
    · intro i hi0 hi1
      rw [At_eq_phys (d := ⟨d4.data, d4.begin, d4.end_, d4.size - (l - f)⟩)
        (by simp only [Deque.Wf, Deque.Capacity, t1, t2, t4, s1, s2, s4] at *
            omega) hi0 (by simp only [t4, s4]; omega),
        At_eq_phys hd' hi0 (by omega)]
      simp only [t2, s2]
      rw [← phys_add_of_len hlen4,
        H4 _ (by omega) (by omega), if_neg (by omega),
        H2 _ (by omega) (by omega), if_neg (by omega), phys_add_of_len hcl.symm]
    · intro i hi0 hi1
      rw [At_eq_phys (d := ⟨d4.data, d4.begin, d4.end_, d4.size - (l - f)⟩)
        (by simp only [Deque.Wf, Deque.Capacity, t1, t2, t4, s1, s2, s4] at *
            omega) (by omega) (by simp only [t4, s4]; omega),
        At_eq_phys hd' (by omega) (by omega)]
      simp only [t2, s2]
      rw [← phys_add_of_len hlen4,
        H4 _ (by omega) (by omega), if_neg (by omega), phys_add_of_len hlen2,
        H2 _ (by omega) (by omega), if_pos (by omega)]
      congr 1
      ring

theorem shrink_endNear {d d' : Deque α} (hd : d.Wf) (he : d.EndNear)
    (h : d.shrinkIfNeeded = some d') : d'.EndNear := by
  obtain ⟨d1, h1, hw, hs, -, hno, hyes⟩ := shrink_wf hd
  rw [h] at h1
  cases h1
  by_cases hsh : d.shrinkThreshold < d.Capacity
  · obtain ⟨a, b, c, e⟩ := hyes hsh
    have := hd.1
    unfold Deque.EndNear
    rw [e, a, c, hs, Int.zero_add]
    exact ⟨by omega, by omega, rfl⟩
  · rw [hno hsh]; exact he

/-- Full description of `EraseRange` on a range that is in bounds and not empty. -/
theorem EraseRange_spec {d : Deque α} (hd : d.Wf) {f l : Int}
    (hf : 0 ≤ f) (hfl : f < l) (hl : l ≤ d.size) :
    ∃ d', d.EraseRange f l = some (d', GoError.nil) ∧ d'.Wf ∧
      d'.size = d.size - (l - f) ∧ (d.EndNear → d'.EndNear) ∧
      (∀ i, 0 ≤ i → i < f → d'.At i = d.At i) ∧
      (∀ i, f ≤ i → i < d'.size → d'.At i = d.At (i + (l - f))) := by
  obtain ⟨d5, hrun, hw5, hs5, -, he5, ha5, hb5⟩ := EraseRange_before_shrink hd hf hfl hl
  obtain ⟨d', h1, hw, hs, hat, -, -⟩ := shrink_wf hw5
  refine ⟨d', ?_, hw, by rw [hs, hs5], ?_, ?_, ?_⟩
  · rw [hrun, h1]; rfl
  · intro he
    exact shrink_endNear hw5 (he5 he) h1
  · intro i hi0 hi1
    rw [hat i, ha5 i hi0 hi1]
  · intro i hi0 hi1
    rw [hat i, hb5 i hi0 (by rw [hs, hs5] at hi1; exact hi1)]

theorem Inv_of_wf_endNear {d : Deque α} (hd : d.Wf) (he : d.EndNear) : d.Inv :=
  ⟨hd.1, hd.2.1, hd.2.2.1, hd.2.2.2, he.1, he.2.1⟩

theorem Deque.EndOk.endNear {d : Deque α} (he : d.EndOk) (hc : 0 < d.Capacity) : d.EndNear := by
  unfold Deque.EndOk at he
  have := emod_range (x := d.begin + d.size) hc
  refine ⟨by omega, by omega, ?_⟩
  rw [he, Int.emod_emod]

theorem expand_endOk {d d1 : Deque α} (hd : d.Wf) (he : d.EndOk ∨ d.size = d.Capacity)
    (h : d.expandIfNeeded = some d1) : d1.EndOk := by
  obtain ⟨d', h1, hw, hs, hlt, hbl, -, hno, hyes⟩ := expand_wf hd
  rw [h] at h1
  cases h1
  by_cases hfull : d.size = d.Capacity
  · obtain ⟨a, b, c, -⟩ := hyes hfull
    unfold Deque.EndOk
    rw [b, c, Int.zero_add, hs, Int.emod_eq_of_lt hd.1 (by omega)]
  · rw [hno hfull]
    rcases he with he | he
    · exact he
    · exact absurd he hfull

/-- Full description of `PushBack` on a deque whose `end` is where it should be. -/
theorem PushBack_spec {d : Deque α} (hd : d.Wf) (he : d.EndOk ∨ d.size = d.Capacity)
    (v : Option α) :
    ∃ d', d.PushBack v = some d' ∧ d'.Wf ∧ d'.EndOk ∧ d'.size = d.size + 1 ∧
      d.size + 1 ≤ d'.Capacity ∧
      (d.size ≠ d.Capacity → d'.Capacity = d.Capacity) ∧
      (d.size = d.Capacity → d'.Capacity = if d.size * 2 = 0 then 1 else d.size * 2) ∧
      d'.At d.size = some v ∧ ∀ j, 0 ≤ j → j < d.size → d'.At j = d.At j := by
  obtain ⟨d1, h1, hw1, hs1, hlt1, hbl1, hat1, hno1, hyes1⟩ := expand_wf hd
  have he1 := expand_endOk hd he h1
  have hw1' := hw1
  obtain ⟨hs0, hsc, hb0, hb1⟩ := hw1
  have hc : 0 < d1.Capacity := by omega
  have hl : 0 < (d1.data.length : Int) := hc
  unfold Deque.EndOk at he1
  have hcd : ∀ e n, (⟨d1.data.set (d1.end_).toNat v, d1.begin, e, n⟩ : Deque α).Capacity
      = d1.Capacity := by
    intro e n; simp only [Deque.Capacity, List.length_set]
  have hrun : d.PushBack v = some
      ⟨d1.data.set (d1.end_).toNat v, d1.begin, (d1.begin + d1.size + 1) % d1.Capacity,
        d1.size + 1⟩ := by
    unfold Deque.PushBack
    have hs := setSlot_emod d1.data hl (d1.begin + d1.size) v
    have hn := nextIndex_emod ⟨d1.data.set (d1.end_).toNat v, d1.begin, d1.end_, d1.size⟩
      (by rw [hcd]; exact hc) (d1.begin + d1.size)
    rw [hcd] at hn
    rw [show ((d1.data.length : Int)) = d1.Capacity from rfl, ← he1] at hs
    rw [← he1] at hn
    simp only [h1, hs, hn, Option.bind_eq_bind, Option.some_bind]
  have hwf' : Deque.Wf ⟨d1.data.set (d1.end_).toNat v, d1.begin,
      (d1.begin + d1.size + 1) % d1.Capacity, d1.size + 1⟩ := by
    simp only [Deque.Wf, Deque.Capacity, List.length_set] at *
    omega
  refine ⟨_, hrun, hwf', ?_, by simp only; omega, ?_, ?_, ?_, ?_, ?_⟩
  · simp only [Deque.EndOk, hcd]
    congr 1
    ring
  · rw [hcd]; omega
  · intro hne
    rw [hcd, hno1 hne]
  · intro hfull
    rw [hcd]
    exact (hyes1 hfull).1
  · rw [At_eq_phys hwf' hd.1 (by simp only; omega)]
    simp only
    rw [← hs1, he1]
    exact phys_set_self d1.data hl (d1.begin + d1.size) v
  · intro j hj0 hj1
    rw [At_eq_phys hwf' hj0 (by simp only; omega), ← hat1 j, At_eq_phys hw1' hj0 (by omega)]
    simp only
    rw [he1]
    exact phys_set_ne d1.data hl v (emod_ne_of_window (by omega) (by
      rw [show ((d1.data.length : Int)) = d1.Capacity from rfl]; omega)).symm

theorem PushFront_endOk {d d' : Deque α} (hd : d.Wf) (he : d.EndOk ∨ d.size = d.Capacity)
    {v : Option α} (h : d.PushFront v = some d') :
    d'.EndOk ∧ d.size + 1 ≤ d'.Capacity ∧ (d.size ≠ d.Capacity → d'.Capacity = d.Capacity) ∧
      (d.size = d.Capacity → d'.Capacity = if d.size * 2 = 0 then 1 else d.size * 2) := by
  obtain ⟨d1, h1, hw1, hs1, hlt1, hbl1, hat1, hno1, hyes1⟩ := expand_wf hd
  have he1 := expand_endOk hd he h1
  obtain ⟨hs0, hsc, hb0, hb1⟩ := hw1
  have hc : 0 < d1.Capacity := by omega
  have hl : 0 < (d1.data.length : Int) := hc
  unfold Deque.EndOk at he1
  have hp := preIndex_emod d1 hc d1.begin
  rw [Int.emod_eq_of_lt hb0 hbl1] at hp
  unfold Deque.PushFront at h
  have hs := setSlot_emod d1.data hl (d1.begin - 1) v
  rw [show ((d1.data.length : Int)) = d1.Capacity from rfl] at hs
  simp only [h1, hp, hs, Option.bind_eq_bind, Option.some_bind, Option.some.injEq] at h
  subst h
  refine ⟨?_, ?_, ?_, ?_⟩
  · simp only [Deque.EndOk, Deque.Capacity, List.length_set]
    rw [he1, Int.emod_add_emod]
    congr 1
    ring
  · simp only [Deque.Capacity, List.length_set] at *; omega
  · intro hne
    simp only [Deque.Capacity, List.length_set]
    rw [hno1 hne]
  · intro hfull
    simp only [Deque.Capacity, List.length_set]
    exact (hyes1 hfull).1

/-- Full description of `Insert` on a deque whose `end` is where it should be. -/
theorem Insert_spec {d : Deque α} (hd : d.Wf) (hc0 : 1 ≤ d.Capacity) (he : d.EndOk)
    {pos : Int} (hp0 : 0 ≤ pos) (hp1 : pos ≤ d.size) (v : Option α) :
    ∃ d', d.Insert pos v = some (d', GoError.nil) ∧ d'.Wf ∧ d'.EndOk ∧
      d'.size = d.size + 1 ∧ d'.At pos = some v ∧
      (∀ i, 0 ≤ i → i < pos → d'.At i = d.At i) ∧
      (∀ i, pos < i → i ≤ d.size → d'.At i = d.At (i - 1)) := by
  unfold Deque.Insert
  rw [if_neg (by omega)]
  by_cases hz : pos = 0
  · rw [if_pos hz]
    have hinv : d.Inv := Inv_of_wf_endNear hd (he.endNear (by omega))
    obtain ⟨d', h1, hinv', hs', hat0, hatj⟩ := PushFront_spec hinv v
    obtain ⟨he', -, -, -⟩ := PushFront_endOk hd (Or.inl he) h1
    refine ⟨d', by rw [h1]; rfl, hinv'.wf, he', hs', by rw [hz]; exact hat0, ?_, ?_⟩
    · intro i hi0 hi1; omega
    · intro i hi0 hi1
      have := hatj (i - 1) (by omega) (by omega)
      rwa [Int.sub_add_cancel] at this
  rw [if_neg hz]
  by_cases hlast : pos = d.size
  · rw [if_pos hlast]
    obtain ⟨d', h1, hw', he', hs', -, -, -, hat0, hatj⟩ := PushBack_spec hd (Or.inl he) v
    refine ⟨d', by rw [h1]; rfl, hw', he', hs', by rw [hlast]; exact hat0, ?_, ?_⟩
    · intro i hi0 hi1; exact hatj i hi0 (by omega)
    · intro i hi0 hi1; omega
  rw [if_neg hlast]
  obtain ⟨d1, h1, hw1, hs1, hlt1, hbl1, hat1, -, -⟩ := expand_wf hd
  have he1 := expand_endOk hd (Or.inl he) h1
  have hw1' := hw1
  obtain ⟨hs0, hsc, hb0, hb1⟩ := hw1
  have hc : 0 < d1.Capacity := by omega
  have hcl : d1.Capacity = (d1.data.length : Int) := rfl
  unfold Deque.EndOk at he1
  simp only [h1, Option.bind_eq_bind, Option.some_bind]
  by_cases hbr : pos < d1.size - pos
  · -- the front block moves one slot toward the front
    have hp := preIndex_emod d1 hc d1.begin
    rw [Int.emod_eq_of_lt hb0 hbl1] at hp
    obtain ⟨d2, hloop, ⟨s1, s2, s3, s4⟩, H2⟩ :=
      insertFrontLoop_spec pos.toNat d1 (d1.begin - 1) hc
        (by rw [Int.toNat_of_nonneg hp0]; omega)
    rw [Int.toNat_of_nonneg hp0] at hloop H2
    have hl2 : (d2.data.length : Int) = d1.Capacity := by rw [s1]; rfl
    have hl2' : 0 < (d2.data.length : Int) := by rw [hl2]; exact hc
    have hset := setSlot_emod d2.data hl2' (d1.begin - 1 + pos) v
    rw [hl2] at hset
    have hp3 : Deque.preIndex
        ⟨d2.data.set ((d1.begin - 1 + pos) % d1.Capacity).toNat v, d2.begin, d2.end_, d2.size⟩
        d2.begin = some ((d1.begin - 1) % d1.Capacity) := by
      unfold Deque.preIndex Deque.Capacity
      simp only [List.length_set, s1, s2]
      exact hp
    have hwf' : Deque.Wf
        ⟨d2.data.set ((d1.begin - 1 + pos) % d1.Capacity).toNat v,
          (d1.begin - 1) % d1.Capacity, d2.end_, d2.size + 1⟩ := by
      have := emod_range (x := d1.begin - 1) hc
      simp only [Deque.Wf, Deque.Capacity, List.length_set, s1, s4] at *
      omega
    have hread : ∀ i, 0 ≤ i → i ≤ d1.size →
        Deque.At ⟨d2.data.set ((d1.begin - 1 + pos) % d1.Capacity).toNat v,
          (d1.begin - 1) % d1.Capacity, d2.end_, d2.size + 1⟩ i
        = phys (d2.data.set ((d1.begin - 1 + pos) % d1.Capacity).toNat v)
            (d1.begin - 1 + i) := by
      intro i hi0 hi1
      rw [At_eq_phys hwf' hi0 (by simp only [s4]; omega)]
      simp only
      have hls : ((d2.data.set ((d1.begin - 1 + pos) % d1.Capacity).toNat v).length : Int)
          = d1.Capacity := by rw [List.length_set]; exact hl2
      exact phys_emod_add_of_len hls _ _
    refine ⟨_, ?_, hwf', ?_, ?_, ?_, ?_, ?_⟩
    · simp only [if_pos hbr, hp, hloop, hset, hp3, Option.bind_eq_bind, Option.some_bind]
    · simp only [Deque.EndOk, Deque.Capacity, List.length_set, s1, s3, s4]
      rw [he1, Int.emod_add_emod]
      congr 1
      ring
    · simp only [s4]; omega
    · rw [hread pos hp0 (by omega), ← hl2]
      exact phys_set_self d2.data hl2' (d1.begin - 1 + pos) v
    · intro i hi0 hi1
      rw [hread i hi0 (by omega), ← hl2,
        phys_set_ne d2.data hl2' v (emod_ne_of_window (by omega) (by rw [hl2]; omega)).symm,
        H2 _ (by omega) (by omega), if_pos (by omega), ← hat1 i,
        At_eq_phys hw1' hi0 (by omega)]
      congr 1
      ring
    · intro i hi0 hi1
      rw [hread i (by omega) (by omega), ← hl2,
        phys_set_ne d2.data hl2' v (emod_ne_of_window (by omega) (by rw [hl2]; omega)),
        H2 _ (by omega) (by omega), if_neg (by omega), ← hat1 (i - 1),
        At_eq_phys hw1' (by omega) (by omega)]
      congr 1
      ring
  · -- the back block moves one slot toward the back
    obtain ⟨d2, hloop, ⟨s1, s2, s3, s4⟩, H2⟩ :=
      eraseLeftLoop_spec 1 (le_refl 1) (d1.size - pos).toNat d1 (d1.begin + d1.size) hc
        (by rw [Int.toNat_of_nonneg (by omega)]; omega)
    rw [Int.toNat_of_nonneg (by omega), ← insertBackLoop_eq, ← he1] at hloop
    rw [Int.toNat_of_nonneg (by omega)] at H2
    have hidx : d1.begin + d1.size - (d1.size - pos) = d1.begin + pos := by ring
    rw [hidx] at hloop H2
    have hl2 : (d2.data.length : Int) = d1.Capacity := by rw [s1]; rfl
    have hl2' : 0 < (d2.data.length : Int) := by rw [hl2]; exact hc
    have hset := setSlot_emod d2.data hl2' (d1.begin + pos) v
    rw [hl2] at hset
    have hn3 : Deque.nextIndex
        ⟨d2.data.set ((d1.begin + pos) % d1.Capacity).toNat v, d2.begin, d2.end_, d2.size⟩
        d2.end_ = some ((d1.begin + d1.size + 1) % d1.Capacity) := by
      have hn := nextIndex_emod d1 hc (d1.begin + d1.size)
      rw [← he1] at hn
      unfold Deque.nextIndex Deque.Capacity
      simp only [List.length_set, s1, s3]
      exact hn
    have hwf' : Deque.Wf
        ⟨d2.data.set ((d1.begin + pos) % d1.Capacity).toNat v,
          d2.begin, (d1.begin + d1.size + 1) % d1.Capacity, d2.size + 1⟩ := by
      simp only [Deque.Wf, Deque.Capacity, List.length_set, s1, s2, s4] at *
      omega
    have hread : ∀ i, 0 ≤ i → i ≤ d1.size →
        Deque.At ⟨d2.data.set ((d1.begin + pos) % d1.Capacity).toNat v,
          d2.begin, (d1.begin + d1.size + 1) % d1.Capacity, d2.size + 1⟩ i
        = phys (d2.data.set ((d1.begin + pos) % d1.Capacity).toNat v) (d1.begin + i) := by
      intro i hi0 hi1
      rw [At_eq_phys hwf' hi0 (by simp only [s4]; omega)]
      simp only [s2]
    refine ⟨_, ?_, hwf', ?_, ?_, ?_, ?_, ?_⟩
    · simp only [if_neg hbr, hloop, hset, hn3, Option.bind_eq_bind, Option.some_bind]
    · simp only [Deque.EndOk, Deque.Capacity, List.length_set, s1, s2, s4]
      congr 1
      ring
    · simp only [s4]; omega
    · rw [hread pos hp0 (by omega), ← hl2]
      exact phys_set_self d2.data hl2' (d1.begin + pos) v
    · intro i hi0 hi1
      rw [hread i hi0 (by omega), ← hl2,
        phys_set_ne d2.data hl2' v (emod_ne_of_window (by omega) (by rw [hl2]; omega)).symm,
        H2 _ (by omega) (by omega), if_neg (by omega), ← hat1 i,
        At_eq_phys hw1' hi0 (by omega)]
    · intro i hi0 hi1
      rw [hread i (by omega) (by omega), ← hl2,
        phys_set_ne d2.data hl2' v (emod_ne_of_window (by omega) (by rw [hl2]; omega)),
        H2 _ (by omega) (by omega), if_pos (by omega), ← hat1 (i - 1),
        At_eq_phys hw1' (by omega) (by omega)]
      congr 1
      ring

/-- Full description of `PopBack` on a non-empty deque whose `end` is congruent
to `begin + size`. -/
theorem PopBack_spec {d : Deque α} (hd : d.Wf) (he : d.EndNear) (hne : d.size ≠ 0) :
    ∃ d' v, d.PopBack = some (d', v) ∧ d.Back = some v ∧ d'.Wf ∧
      d'.size = d.size - 1 ∧
      (¬ truncMul12 ((d.size - 1) * 2) < d.Capacity → d'.Capacity = d.Capacity) ∧
      ∀ j, 0 ≤ j → j < d.size - 1 → d'.At j = d.At j := by
  have hd' := hd
  obtain ⟨hs0, hs1, hb0, hb1⟩ := hd
  obtain ⟨e0, e1, e2⟩ := he
  have hc : 0 < d.Capacity := by omega
  have hl : 0 < (d.data.length : Int) := hc
  have hidx : d.preIndex d.end_ = some ((d.begin + d.size - 1) % d.Capacity) := by
    unfold Deque.preIndex
    rw [goMod_of_nonneg (by omega) hc, Int.add_emod_self]
    have e3 : d.end_ - 1 = d.end_ + (-1) := by ring
    rw [e3, ← Int.emod_add_emod, e2, Int.emod_add_emod]
    rfl
  obtain ⟨val, hval⟩ := phys_some d.data hl (d.begin + d.size - 1)
  have hval' : getSlot d.data ((d.begin + d.size - 1) % d.Capacity) = some val := hval
  have hset := setSlot_emod d.data hl (d.begin + d.size - 1) none
  rw [show ((d.data.length : Int)) = d.Capacity from rfl] at hset
  have hwf4 : Deque.Wf
      ⟨d.data.set ((d.begin + d.size - 1) % d.Capacity).toNat none, d.begin, d.end_,
        d.size - 1⟩ := by
    simp only [Deque.Wf, Deque.Capacity, List.length_set] at *
    omega
  obtain ⟨d', hsh, hw', hs', hat', hno', -⟩ := shrink_wf hwf4
  have hE : d.Empty = false := by simp [Deque.Empty, Deque.Size, hne]
  refine ⟨d', val, ?_, ?_, hw', hs', ?_, ?_⟩
  · unfold Deque.PopBack
    simp only [hE, Bool.false_eq_true, if_false, hidx, hval', hset, hsh,
      Option.bind_eq_bind, Option.some_bind]
  · unfold Deque.Back
    rw [At_eq_phys hd' (by omega) (by omega), ← hval]
    congr 1
    ring
  · intro hthr
    rw [hno' (by simpa only [Deque.shrinkThreshold, Deque.Capacity, List.length_set] using hthr)]
    simp only [Deque.Capacity, List.length_set]
  · intro j hj0 hj1
    rw [hat' j, At_eq_phys hwf4 hj0 (by simp only; omega), At_eq_phys hd' hj0 (by omega)]
    simp only
    exact phys_set_ne d.data hl none (emod_ne_of_window (by omega) (by
      rw [show ((d.data.length : Int)) = d.Capacity from rfl]; omega)).symm

theorem Deque.Models.size_eq {d : Deque α} {l : List (Option α)} (h : d.Models l) :
    d.size = (l.length : Int) := h.1

theorem Deque.Models.pushBack {d d' : Deque α} {l : List (Option α)} (h : d.Models l)
    {v : Option α} (hs : d'.size = d.size + 1) (hv : d'.At d.size = some v)
    (hj : ∀ j, 0 ≤ j → j < d.size → d'.At j = d.At j) : d'.Models (l ++ [v]) := by
  obtain ⟨h1, h2⟩ := h
  refine ⟨by rw [hs, h1]; simp, ?_⟩
  intro i hi
  simp only [List.length_append, List.length_singleton] at hi
  by_cases hlt : i < l.length
  · rw [List.getElem?_append_left hlt, hj i (by omega) (by omega), h2 i hlt]
  · have hil : i = l.length := by omega
    subst hil
    rw [List.getElem?_append_right (le_refl _), Nat.sub_self, ← h1, hv]
    rfl

theorem Deque.Models.pushFront {d d' : Deque α} {l : List (Option α)} (h : d.Models l)
    {v : Option α} (hv : d'.At 0 = some v) (hs : d'.size = d.size + 1)
    (hj : ∀ j, 0 ≤ j → j < d.size → d'.At (j + 1) = d.At j) : d'.Models (v :: l) := by
  obtain ⟨h1, h2⟩ := h
  refine ⟨by rw [hs, h1]; simp, ?_⟩
  intro i hi
  simp only [List.length_cons] at hi
  cases i with
  | zero => simpa using hv
  | succ j =>
    rw [List.getElem?_cons_succ, ← h2 j (by omega)]
    have := hj j (by omega) (by omega)
    push_cast
    exact this

theorem Deque.Models.insert {d d' : Deque α} {l : List (Option α)} (h : d.Models l)
    {pos : Int} {v : Option α} (hp0 : 0 ≤ pos) (hp1 : pos ≤ d.size)
    (hs : d'.size = d.size + 1) (hv : d'.At pos = some v)
    (hlo : ∀ i, 0 ≤ i → i < pos → d'.At i = d.At i)
    (hhi : ∀ i, pos < i → i ≤ d.size → d'.At i = d.At (i - 1)) :
    d'.Models (l.take pos.toNat ++ v :: l.drop pos.toNat) := by
  obtain ⟨h1, h2⟩ := h
  have hpl : pos.toNat ≤ l.length := by omega
  have hlen : (l.take pos.toNat ++ v :: l.drop pos.toNat).length = l.length + 1 := by
    simp only [List.length_append, List.length_take, List.length_cons, List.length_drop]
    omega
  refine ⟨by rw [hs, h1, hlen]; simp, ?_⟩
  intro i hi
  rw [hlen] at hi
  have htl : (l.take pos.toNat).length = pos.toNat := by
    rw [List.length_take]; omega
  by_cases hlt : i < pos.toNat
  · rw [List.getElem?_append_left (by rw [htl]; exact hlt), List.getElem?_take_of_lt hlt,
      hlo i (by omega) (by omega), h2 i (by omega)]
  · rw [List.getElem?_append_right (by rw [htl]; omega), htl]
    by_cases heq : i = pos.toNat
    · subst heq
      rw [Nat.sub_self, List.getElem?_cons_zero, Int.toNat_of_nonneg hp0, hv]
    · obtain ⟨m, hm⟩ : ∃ m, i - pos.toNat = m + 1 := ⟨i - pos.toNat - 1, by omega⟩
      rw [hm, List.getElem?_cons_succ, List.getElem?_drop, hhi i (by omega) (by omega)]
      have e : ((i : Int) - 1) = ((i - 1 : Nat) : Int) := by omega
      rw [e, h2 (i - 1) (by omega)]
      congr 1
      omega

theorem Deque.Models.eraseRange {d d' : Deque α} {l : List (Option α)} (h : d.Models l)
    {f t : Int} (hf : 0 ≤ f) (hft : f < t) (ht : t ≤ d.size)
    (hs : d'.size = d.size - (t - f))
    (hlo : ∀ i, 0 ≤ i → i < f → d'.At i = d.At i)
    (hhi : ∀ i, f ≤ i → i < d'.size → d'.At i = d.At (i + (t - f))) :
    d'.Models (l.take f.toNat ++ l.drop t.toNat) := by
  obtain ⟨h1, h2⟩ := h
  have htl : (l.take f.toNat).length = f.toNat := by
    rw [List.length_take]; omega
  have hlen : ((l.take f.toNat ++ l.drop t.toNat).length : Int) = l.length - (t - f) := by
    simp only [List.length_append, htl, List.length_drop]
    omega
  refine ⟨by rw [hs, h1, hlen], ?_⟩
  intro i hi
  have hi' : (i : Int) < l.length - (t - f) := by rw [← hlen]; exact_mod_cast hi
  by_cases hlt : i < f.toNat
  · rw [List.getElem?_append_left (by rw [htl]; exact hlt), List.getElem?_take_of_lt hlt,
      hlo i (by omega) (by omega), h2 i (by omega)]
  · rw [List.getElem?_append_right (by rw [htl]; omega), htl, List.getElem?_drop,
      hhi i (by omega) (by rw [hs, h1]; omega)]
    have e : ((i : Int) + (t - f)) = ((t.toNat + (i - f.toNat) : Nat) : Int) := by omega
    rw [e, h2 _ (by omega)]

theorem Deque.Models.popBack {d d' : Deque α} {l : List (Option α)} (h : d.Models l)
    (hne : d.size ≠ 0) {v : Option α} (hv : d.Back = some v)
    (hs : d'.size = d.size - 1)
    (hj : ∀ j, 0 ≤ j → j < d.size - 1 → d'.At j = d.At j) :
    l[l.length - 1]? = some v ∧ d'.Models l.dropLast := by
  obtain ⟨h1, h2⟩ := h
  have hpos : 0 < l.length := by omega
  constructor
  · rw [← h2 (l.length - 1) (by omega), ← hv]
    unfold Deque.Back
    congr 1
    omega
  · refine ⟨by rw [hs, h1, List.length_dropLast]; omega, ?_⟩
    intro i hi
    rw [List.length_dropLast] at hi
    rw [List.getElem?_dropLast, if_pos hi, hj i (by omega) (by omega), h2 i (by omega)]

theorem PopFront_capacity {d d' : Deque α} (hd : d.Inv) (hne : d.size ≠ 0) {v : Option α}
    (h : d.PopFront = some (d', v))
    (hthr : ¬ truncMul12 ((d.size - 1) * 2) < d.Capacity) : d'.Capacity = d.Capacity := by
  obtain ⟨hs0, hs1, hb0, hb1, he0, he1⟩ := hd
  unfold Deque.PopFront at h
  have hE : d.Empty = false := by simp [Deque.Empty, Deque.Size, hne]
  simp only [hE, Bool.false_eq_true, if_false, Option.bind_eq_bind, Option.bind_eq_some,
    Option.some.injEq, Prod.mk.injEq, Deque.nextIndex] at h
  obtain ⟨val, -, data, hset, b, hb, d3, hsh, rfl, -⟩ := h
  have hl := setSlot_length hset
  have hb' := goMod_range (by omega) (by simp only [Deque.Capacity]; omega) hb
  have hwf : Deque.Wf ⟨data, b, d.end_, d.size - 1⟩ := by
    simp only [Deque.Wf, Deque.Capacity, hl] at *
    omega
  obtain ⟨d', h1, -, -, -, hno, -⟩ := shrink_wf hwf
  rw [hsh] at h1
  cases h1
  rw [hno (by simpa only [Deque.shrinkThreshold, Deque.Capacity, hl] using hthr)]
  simp only [Deque.Capacity, hl]

theorem New_spec {c : Int} (hc : 0 ≤ c) :
    ∃ d0 : Deque α, New c = some d0 ∧ d0.Wf ∧ d0.EndOk ∧ 1 ≤ d0.Capacity ∧
      d0.Models [] ∧ d0.size = 0 := by
  unfold New makeSlice
  simp only
  have hn : ¬ (if c = 0 then 1 else c) < 0 := by split <;> omega
  have hn1 : 1 ≤ (if c = 0 then 1 else c) := by split <;> omega
  rw [if_neg hn]
  generalize (if c = 0 then 1 else c) = n at *
  refine ⟨_, rfl, ?_, ?_, ?_, ?_, rfl⟩
  · simp only [Deque.Wf, Deque.Capacity, List.length_replicate]
    omega
  · simp only [Deque.EndOk, Deque.Capacity, List.length_replicate]
    rfl
  · simp only [Deque.Capacity, List.length_replicate]
    omega
  · exact ⟨rfl, fun i hi => absurd hi (by simp)⟩

/-- A run of pushes on a deque whose `end` is where it should be: every call
returns, and the deque follows the reference list. -/
theorem push_run (ops : List (Op α)) : (∀ op ∈ ops, op.isPush = true) →
    ∀ (d : Deque α) (l : List (Option α)),
      d.Wf → d.EndOk → 1 ≤ d.Capacity → d.Models l →
      ∃ d', d.run ops = some d' ∧ d'.Wf ∧ d'.EndOk ∧ 1 ≤ d'.Capacity ∧
        d'.Models (refRun l ops) ∧ d'.size = d.size + (ops.length : Int) := by
  induction ops with
  | nil =>
    intro _ d l hw he hc hm
    exact ⟨d, rfl, hw, he, hc, hm, by simp⟩
  | cons op ops ih =>
    intro hall d l hw he hc hm
    have hop : op.isPush = true := hall op (List.mem_cons_self _ _)
    have hrest : ∀ o ∈ ops, o.isPush = true := fun o ho => hall o (List.mem_cons_of_mem _ ho)
    cases op with
    | PushBack v =>
      obtain ⟨d1, h1, hw1, he1, hs1, hc1, -, -, hv, hj⟩ := PushBack_spec hw (Or.inl he) v
      obtain ⟨d', h2, hw', he', hc', hm', hs'⟩ := ih hrest d1 (l ++ [v]) hw1 he1
        (by have := hw.1; omega) (Deque.Models.pushBack hm hs1 hv hj)
      refine ⟨d', ?_, hw', he', hc', hm', ?_⟩
      · simp only [Deque.run, Deque.step, h1, Option.some_bind]
        exact h2
      · rw [hs', hs1]; simp only [List.length_cons]; push_cast; ring
    | PushFront v =>
      have hinv : d.Inv := Inv_of_wf_endNear hw (he.endNear (by omega))
      obtain ⟨d1, h1, hinv1, hs1, hv, hj⟩ := PushFront_spec hinv v
      obtain ⟨he1, hc1, -, -⟩ := PushFront_endOk hw (Or.inl he) h1
      obtain ⟨d', h2, hw', he', hc', hm', hs'⟩ := ih hrest d1 (v :: l) hinv1.wf he1
        (by have := hw.1; omega) (Deque.Models.pushFront hm hv hs1 hj)
      refine ⟨d', ?_, hw', he', hc', hm', ?_⟩
      · simp only [Deque.run, Deque.step, h1, Option.some_bind]
        exact h2
      · rw [hs', hs1]; simp only [List.length_cons]; push_cast; ring
    | PopBack => simp [Op.isPush] at hop
    | PopFront => simp [Op.isPush] at hop
    | Insert pos v => simp [Op.isPush] at hop
    | Erase pos => simp [Op.isPush] at hop
    | EraseRange f l => simp [Op.isPush] at hop

/-! ## The claims -/

/-- C1 (fails on the code): after `New(4); PushBack(1); PushBack(2); PushBack(3);
PopBack(); PushBack(4)` the reference list is `[1, 2, 4]` and `Size()` is 3, but
`At(2)` is `nil`: the value 4 was written one slot too far because `PopBack`
left `end` where it was. -/
theorem C1_order_not_preserved_after_PopBack :
    refRun [] opsPopBackPush = [some 1, some 2, some 4] ∧
    (runNew 4 opsPopBackPush).map Deque.Size = some 3 ∧
    (runNew 4 opsPopBackPush).bind Deque.toSeq = some [some 1, some 2, none] ∧
    (runNew 4 opsPopBackPush).bind (fun d => d.At 2) = some none := by
  decide

/-- C2 (counterexample): after `New(1); PushBack(7); PopBack()` the deque
completes every call and `Capacity()` is 0, so `Capacity() >= 1` fails. -/
theorem C2_capacity_zero_reached :
    (runNew 1 [Op.PushBack (some 7), Op.PopBack] : Option (Deque Nat)).map Deque.Capacity
      = some 0 := by
  decide

/-- C2 (amended): for every `c ≥ 0` and every sequence of public operations on
`New(c)` that runs to completion, `0 ≤ Size() ≤ Capacity()`, and `Capacity() ≥ 1`
whenever the deque is not empty. -/
theorem C2_size_le_capacity (c : Int) (ops : List (Op α)) (d : Deque α)
    (hc : 0 ≤ c) (h : runNew c ops = some d) :
    0 ≤ d.Size ∧ d.Size ≤ d.Capacity ∧ (d.Empty = false → 1 ≤ d.Capacity) := by
  obtain ⟨hs0, hs1, -⟩ := Reachable.inv ⟨c, ops, hc, h⟩
  refine ⟨hs0, hs1, ?_⟩
  intro hE
  have hne : d.size ≠ 0 := by
    intro h0
    simp [Deque.Empty, Deque.Size, h0] at hE
  omega

/-- C2 (witness): the amended invariant applied to `New(1); PushBack(7); PopBack()`. -/
theorem C2_size_le_capacity_witness :
    (0 : Int) ≤ 1 ∧
    runNew 1 [Op.PushBack (some 7), Op.PopBack] = some (emptiedDeque : Deque Nat) ∧
    (0 ≤ (emptiedDeque : Deque Nat).Size ∧
      (emptiedDeque : Deque Nat).Size ≤ (emptiedDeque : Deque Nat).Capacity ∧
      ((emptiedDeque : Deque Nat).Empty = false → 1 ≤ (emptiedDeque : Deque Nat).Capacity)) :=
  ⟨by decide, by decide,
    C2_size_le_capacity 1 [Op.PushBack (some 7), Op.PopBack] emptiedDeque (by decide) (by decide)⟩

/-- C3 (fails on the code): `New(5); PushBack(1); PushBack(2); PushBack(3);
PopFront(); PopFront()` completes and leaves `end = 2 = Capacity()` with
`Size() = 1`; the next `PushBack(4)` writes `data[2]` in a slice of length 2
and panics. -/
theorem C3_PushBack_panics_after_shrink :
    runNew 5 opsShrinkToFull = some shrunkDeque ∧
    shrunkDeque.end_ = shrunkDeque.Capacity ∧
    shrunkDeque.Size = 1 ∧
    setSlot shrunkDeque.data shrunkDeque.end_ (some 4) = none ∧
    runNew 5 (opsShrinkToFull ++ [Op.PushBack (some 4)]) = none := by
  decide

/-- C4 (fails on the code): after `New(4); PushBack(1); PushBack(2); PushBack(3);
PopBack()` the deque holds `[1, 2]` and `Back()` is 2, but the next `PopBack()`
returns `nil`. -/
theorem C4_PopBack_returns_nil_instead_of_Back :
    runNew 4 opsPopBack = some staleEndDeque ∧
    staleEndDeque.toSeq = some [some 1, some 2] ∧
    staleEndDeque.Back = some (some 2) ∧
    staleEndDeque.PopBack.map Prod.snd = some none := by
  decide

/-- C5: on every non-empty deque reachable from `New(c)`, `c ≥ 0`, `PopFront()`
returns (it does not panic), the returned value is what `Front() = At(0)` was,
`Size()` drops by one, and the new `At(i)` is the old `At(i+1)` for every
`0 ≤ i < ` new `Size()`. -/
theorem C5_PopFront_removes_first (d : Deque α) (hr : Reachable d)
    (hne : d.Empty = false) :
    ∃ d' v, d.PopFront = some (d', v) ∧ d.Front = some v ∧ d.At 0 = some v ∧
      d'.Size = d.Size - 1 ∧
      ∀ i, 0 ≤ i → i < d'.Size → d'.At i = d.At (i + 1) := by
  have hsz : d.size ≠ 0 := by
    intro h0
    simp [Deque.Empty, Deque.Size, h0] at hne
  obtain ⟨d', v, h1, -, h2, h3, h4⟩ := PopFront_spec hr.inv hsz
  exact ⟨d', v, h1, h2, h2, h3, h4⟩

/-- C5 (witness): the theorem applied to the deque left by
`New(2); PushBack(1); PushBack(2)`. -/
theorem C5_PopFront_removes_first_witness :
    Reachable fullDeque ∧ fullDeque.Empty = false ∧
    ∃ d' v, fullDeque.PopFront = some (d', v) ∧ fullDeque.Front = some v ∧
      fullDeque.At 0 = some v ∧ d'.Size = fullDeque.Size - 1 ∧
      ∀ i, 0 ≤ i → i < d'.Size → d'.At i = fullDeque.At (i + 1) :=
  ⟨⟨2, [Op.PushBack (some 1), Op.PushBack (some 2)], by decide, by decide⟩, by decide,
    C5_PopFront_removes_first fullDeque
      ⟨2, [Op.PushBack (some 1), Op.PushBack (some 2)], by decide, by decide⟩ (by decide)⟩

/-- C6 (fails on the code): on the reachable deque left by `New(5); PushBack(1);
PushBack(2); PushBack(3); PopFront(); PopFront()`, `PushBack(4)` panics, so
`PushBack(4); PopBack()` returns nothing. -/
theorem C6_back_round_trip_panics :
    runNew 5 opsShrinkToFull = some shrunkDeque ∧
    shrunkDeque.PushBack (some 4) = none ∧
    (shrunkDeque.PushBack (some 4)).bind Deque.PopBack = none := by
  decide

/-- C7: on every deque reachable from `New(c)`, `c ≥ 0`, and for every value `x`,
`PushFront(x)` returns, the `PopFront()` that follows returns `x`, and `Size()` is
back to its value before the `PushFront`. -/
theorem C7_front_round_trip (d : Deque α) (hr : Reachable d) (x : Option α) :
    ∃ d1 d2, d.PushFront x = some d1 ∧ d1.PopFront = some (d2, x) ∧ d2.Size = d.Size := by
  have hd := hr.inv
  obtain ⟨d1, h1, hd1, hs1, hat, -⟩ := PushFront_spec hd x
  have hne : d1.size ≠ 0 := by
    have := hd.1
    omega
  obtain ⟨d2, v, h2, -, hv, hs2, -⟩ := PopFront_spec hd1 hne
  rw [hat] at hv
  cases hv
  refine ⟨d1, d2, h1, h2, ?_⟩
  simp only [Deque.Size]
  omega

/-- C7 (witness): the theorem applied to the full deque left by
`New(2); PushBack(1); PushBack(2)` and the value 9. -/
theorem C7_front_round_trip_witness :
    Reachable fullDeque ∧
    ∃ d1 d2, fullDeque.PushFront (some 9) = some d1 ∧ d1.PopFront = some (d2, some 9) ∧
      d2.Size = fullDeque.Size :=
  ⟨⟨2, [Op.PushBack (some 1), Op.PushBack (some 2)], by decide, by decide⟩,
    C7_front_round_trip fullDeque
      ⟨2, [Op.PushBack (some 1), Op.PushBack (some 2)], by decide, by decide⟩ (some 9)⟩

/-- C8 (fails on the code): on the reachable deque `[1, 2, 3, 4]` left by
`New(8); PushBack(1..5); PopBack()`, `Insert(2, 99)` and `Erase(2)` both return
`nil`, `Size()` is 4 again, but the sequence is `[1, 2, 99, 4]`: `At(2)` changed
from 3 to 99. -/
theorem C8_Insert_Erase_does_not_restore :
    (runNew 8 opsFivePopBack).bind Deque.toSeq
      = some [some 1, some 2, some 3, some 4] ∧
    ((runNew 8 opsFivePopBack).bind fun d => d.Insert 2 (some 99)).map Prod.snd
      = some GoError.nil ∧
    (((runNew 8 opsFivePopBack).bind fun d => d.Insert 2 (some 99)).bind
      fun r => r.1.Erase 2).map Prod.snd = some GoError.nil ∧
    (((runNew 8 opsFivePopBack).bind fun d => d.Insert 2 (some 99)).bind
      fun r => r.1.Erase 2).bind (fun r => r.1.toSeq)
      = some [some 1, some 2, some 99, some 4] := by
  decide

/-- C9 (fails on the code): on the reachable deque left by `New(5); PushBack(1);
PushBack(2); PushBack(3); PopFront(); PopFront()`, whose `Size()` is 1, the call
`Insert(1, 4)` has a valid position and panics instead of returning `nil`. -/
theorem C9_Insert_valid_pos_panics :
    runNew 5 opsShrinkToFull = some shrunkDeque ∧
    shrunkDeque.Size = 1 ∧
    shrunkDeque.Insert 1 (some 4) = none := by
  decide

/-- C10 (fails on the code): on the deque `New(1)`, whose `Size()` is 0,
`Erase(9223372036854775807)` returns `nil` and not `ErrOutOffRange`, because
`pos+1` wraps around to the least `int`; `Erase(1)` returns `ErrOutOffRange`. -/
theorem C10_Erase_maxInt_returns_nil :
    wrapInt (9223372036854775807 + 1) = -9223372036854775808 ∧
    ((New 1 : Option (Deque Nat)).bind fun d => d.Erase 9223372036854775807).map Prod.snd
      = some GoError.nil ∧
    ((New 1 : Option (Deque Nat)).bind fun d => d.Erase 1).map Prod.snd
      = some GoError.ErrOutOffRange := by
  decide

/-- C11 (counterexample): on `New(1)`, `EraseRange(-1, -2)` has `a ≥ b` and returns
`ErrOutOffRange`, not `nil`. -/
theorem C11_empty_range_out_of_bounds_is_error :
    ((New 1 : Option (Deque Nat)).bind fun d => d.EraseRange (-1) (-2)).map Prod.snd
      = some GoError.ErrOutOffRange ∧
    ((New 1 : Option (Deque Nat)).bind fun d => d.EraseRange 3 2).map Prod.snd
      = some GoError.ErrOutOffRange := by
  decide

/-- C11 (amended): for every deque and all integers `a ≥ b`, `EraseRange(a, b)`
leaves the deque unchanged; it returns `nil` when `a ≥ 0` and `b ≤ Size()`, and
`ErrOutOffRange` otherwise. -/
theorem C11_empty_range_no_op (d : Deque α) (a b : Int) (hab : a ≥ b) :
    ∃ e, d.EraseRange a b = some (d, e) ∧
      (0 ≤ a ∧ b ≤ d.Size → e = GoError.nil) ∧
      (a < 0 ∨ b > d.Size → e = GoError.ErrOutOffRange) := by
  unfold Deque.EraseRange Deque.Size
  by_cases hr : a < 0 ∨ b > d.size
  · rw [if_pos hr]
    exact ⟨_, rfl, fun h => by omega, fun _ => rfl⟩
  · rw [if_neg hr, if_pos hab]
    exact ⟨_, rfl, fun _ => rfl, fun h => absurd h hr⟩

/-- C11 (witness): the amended claim on the deque `[1, 2, 3]` with `a = 2`, `b = 1`. -/
theorem C11_empty_range_no_op_witness :
    (2 : Int) ≥ 1 ∧
    ∃ e, wrappedDeque.EraseRange 2 1 = some (wrappedDeque, e) ∧
      (0 ≤ (2 : Int) ∧ 1 ≤ wrappedDeque.Size → e = GoError.nil) ∧
      ((2 : Int) < 0 ∨ 1 > wrappedDeque.Size → e = GoError.ErrOutOffRange) :=
  ⟨by decide, C11_empty_range_no_op wrappedDeque 2 1 (by decide)⟩

/-- C12: on every deque with `Capacity() ≥ 1`, `0 ≤ begin < Capacity()` and
`Size() ≤ Capacity()`, and for all `0 ≤ firstPos < lastPos ≤ Size()`,
`EraseRange(firstPos, lastPos)` returns `nil`, the new size is the old one minus
`lastPos - firstPos`, `At(i)` is unchanged for `i < firstPos`, and the new `At(i)`
is the old `At(i + lastPos - firstPos)` for `firstPos ≤ i <` new size; both
branches and both outcomes of the shrink test are covered. -/
theorem C12_EraseRange_removes_range (d : Deque α) (firstPos lastPos : Int)
    (hcap : 1 ≤ d.Capacity) (hb0 : 0 ≤ d.begin) (hb1 : d.begin < d.Capacity)
    (hs : d.Size ≤ d.Capacity)
    (hf : 0 ≤ firstPos) (hfl : firstPos < lastPos) (hl : lastPos ≤ d.Size) :
    ∃ d', d.EraseRange firstPos lastPos = some (d', GoError.nil) ∧
      d'.Size = d.Size - (lastPos - firstPos) ∧
      (∀ i, 0 ≤ i → i < firstPos → d'.At i = d.At i) ∧
      (∀ i, firstPos ≤ i → i < d'.Size → d'.At i = d.At (i + lastPos - firstPos)) := by
  unfold Deque.Size at *
  have hpos : 0 < d.Capacity := lt_of_lt_of_le Int.zero_lt_one hcap
  have hwf : d.Wf := ⟨by omega, hs, hb0, Or.inl hb1⟩
  obtain ⟨d', h1, -, h3, -, h5, h6⟩ := EraseRange_spec hwf hf hfl hl
  refine ⟨d', h1, h3, h5, ?_⟩
  intro i hi0 hi1
  rw [h6 i hi0 hi1]
  congr 1
  ring

/-- C12 (witness): the theorem on the wrapped deque `[1, 2, 3]`, erasing `[0, 1)`. -/
theorem C12_EraseRange_removes_range_witness :
    ((1 : Int) ≤ wrappedDeque.Capacity ∧ 0 ≤ wrappedDeque.begin ∧
      wrappedDeque.begin < wrappedDeque.Capacity ∧ wrappedDeque.Size ≤ wrappedDeque.Capacity ∧
      (0 : Int) ≤ 0 ∧ (0 : Int) < 1 ∧ 1 ≤ wrappedDeque.Size) ∧
    ∃ d', wrappedDeque.EraseRange 0 1 = some (d', GoError.nil) ∧
      d'.Size = wrappedDeque.Size - (1 - 0) ∧
      (∀ i, 0 ≤ i → i < 0 → d'.At i = wrappedDeque.At i) ∧
      (∀ i, 0 ≤ i → i < d'.Size → d'.At i = wrappedDeque.At (i + 1 - 0)) :=
  ⟨by decide,
    C12_EraseRange_removes_range wrappedDeque 0 1 (by decide) (by decide) (by decide)
      (by decide) (by decide) (by decide) (by decide)⟩

/-- C13: for every `c ≥ 0` and every sequence of `Capacity() + 1` calls of
`PushBack` or `PushFront` applied to `New(c)`, every call returns, `Size()` is the
number of calls, the deque reads as the list obtained by appending the `PushBack`
values and prepending the `PushFront` values in call order, and
`Capacity() ≥ Size()`. -/
theorem C13_growth_keeps_elements (c : Int) (hc : 0 ≤ c) (ops : List (Op α))
    (hpush : ∀ op ∈ ops, op.isPush = true) (d0 : Deque α) (h0 : New c = some d0)
    (hn : (ops.length : Int) = d0.Capacity + 1) :
    ∃ d, runNew c ops = some d ∧ d.Size = (ops.length : Int) ∧
      d.Models (refRun [] ops) ∧ d.Size ≤ d.Capacity := by
  obtain ⟨d0', h0', hw0, he0, hc0, hm0, hs0⟩ := New_spec (α := α) hc
  rw [h0] at h0'
  cases h0'
  have hlen : (0 : Int) ≤ (ops.length : Int) := by omega
  obtain ⟨d, h1, hw, -, -, hm, hs⟩ := push_run ops hpush d0 [] hw0 he0 hc0 hm0
  refine ⟨d, ?_, ?_, hm, hw.2.1⟩
  · simp only [runNew, h0, Option.some_bind]
    exact h1
  · unfold Deque.Size
    rw [hs, hs0, Int.zero_add]

/-- C13 (witness): the theorem on `New(1); PushBack(1); PushFront(2)`. -/
theorem C13_growth_keeps_elements_witness :
    ((0 : Int) ≤ 1 ∧
      (∀ op ∈ [Op.PushBack (some 1), Op.PushFront (some 2)], op.isPush = true) ∧
      New 1 = some newOneDeque ∧
      (([Op.PushBack (some 1), Op.PushFront (some 2)].length : Nat) : Int)
        = newOneDeque.Capacity + 1) ∧
    ∃ d, runNew 1 [Op.PushBack (some 1), Op.PushFront (some 2)] = some d ∧
      d.Size = (([Op.PushBack (some 1), Op.PushFront (some 2)].length : Nat) : Int) ∧
      d.Models (refRun [] [Op.PushBack (some 1), Op.PushFront (some 2)]) ∧
      d.Size ≤ d.Capacity :=
  ⟨by decide,
    C13_growth_keeps_elements 1 (by decide) [Op.PushBack (some 1), Op.PushFront (some 2)]
      (by decide) newOneDeque (by decide) (by decide)⟩

/-- C14: on a deque with `0 ≤ size ≤ capacity`, `begin` inside the storage and
fewer than `2^50` elements, the test `int(float64(size*2)*1.2) < Capacity()` of
`shrinkIfNeeded` holds exactly when `12 * size < 5 * capacity`; the call returns;
when the test holds the capacity becomes `capacity / 2` and `size ≤ capacity / 2`,
otherwise the capacity stays; `Size()` and every `At(i)` are unchanged. -/
theorem C14_shrink_threshold_and_result (d : Deque α)
    (hs0 : 0 ≤ d.size) (hs1 : d.size ≤ d.Capacity) (hb0 : 0 ≤ d.begin)
    (hb1 : d.begin < d.Capacity ∨ d.Capacity = 0) (hbig : d.size < 2 ^ 50) :
    (d.shrinkThreshold < d.Capacity ↔ 12 * d.Size < 5 * d.Capacity) ∧
    ∃ d', d.shrinkIfNeeded = some d' ∧
      (12 * d.Size < 5 * d.Capacity →
        d'.Capacity = d.Capacity / 2 ∧ d.Size ≤ d.Capacity / 2) ∧
      (¬ 12 * d.Size < 5 * d.Capacity → d'.Capacity = d.Capacity) ∧
      d'.Size = d.Size ∧ ∀ i, 0 ≤ i → i < d.Size → d'.At i = d.At i := by
  have hthr : d.shrinkThreshold = ((6 * (d.size * 2).toNat / 5 : Nat) : Int) := by
    unfold Deque.shrinkThreshold truncMul12
    rw [if_neg (by omega), truncMul12Nat_exact]
    have e51 : (2:Nat) ^ 51 = 2251799813685248 := by norm_num
    have e50 : (2:Int) ^ 50 = 1125899906842624 := by norm_num
    rw [e51]
    rw [e50] at hbig
    omega
  have hiff : d.shrinkThreshold < d.Capacity ↔ 12 * d.Size < 5 * d.Capacity := by
    rw [hthr]
    unfold Deque.Size
    omega
  obtain ⟨d', h1, -, h3, h4, h5, h6⟩ := shrink_wf (d := d) ⟨hs0, hs1, hb0, hb1⟩
  refine ⟨hiff, d', h1, ?_, ?_, h3, fun i _ _ => h4 i⟩
  · intro h
    obtain ⟨a, b, -, -⟩ := h6 (hiff.2 h)
    exact ⟨a, b⟩
  · intro h
    rw [h5 (fun hc => h (hiff.1 hc))]

/-- C14 (witness): the theorem on a deque of capacity 8 with one element. -/
theorem C14_shrink_threshold_and_result_witness :
    ((0 : Int) ≤ sparseDeque.size ∧ sparseDeque.size ≤ sparseDeque.Capacity ∧
      0 ≤ sparseDeque.begin ∧
      (sparseDeque.begin < sparseDeque.Capacity ∨ sparseDeque.Capacity = 0) ∧
      sparseDeque.size < 2 ^ 50) ∧
    (sparseDeque.shrinkThreshold < sparseDeque.Capacity ↔
      12 * sparseDeque.Size < 5 * sparseDeque.Capacity) ∧
    ∃ d', sparseDeque.shrinkIfNeeded = some d' ∧
      (12 * sparseDeque.Size < 5 * sparseDeque.Capacity →
        d'.Capacity = sparseDeque.Capacity / 2 ∧ sparseDeque.Size ≤ sparseDeque.Capacity / 2) ∧
      (¬ 12 * sparseDeque.Size < 5 * sparseDeque.Capacity →
        d'.Capacity = sparseDeque.Capacity) ∧
      d'.Size = sparseDeque.Size ∧
      ∀ i, 0 ≤ i → i < sparseDeque.Size → d'.At i = sparseDeque.At i :=
  ⟨by decide,
    C14_shrink_threshold_and_result sparseDeque (by decide) (by decide) (by decide)
      (by decide) (by decide)⟩

/-- C15: on every deque `At(pos)` is `nil` for `pos < 0` and for `pos ≥ Size()`;
on every empty deque `Front()`, `Back()`, `PopFront()` and `PopBack()` return
`nil`, and the two pops leave the whole deque as it was. -/
theorem C15_boundary_reads_and_pops (d : Deque α) :
    (∀ pos : Int, pos < 0 ∨ pos ≥ d.Size → d.At pos = some none) ∧
    (d.Empty = true →
      d.Front = some none ∧ d.Back = some none ∧
      d.PopFront = some (d, none) ∧ d.PopBack = some (d, none)) := by
  refine ⟨fun pos h => At_of_not_lt (by unfold Deque.Size at h; omega), ?_⟩
  intro hE
  have h0 : d.size = 0 := by
    simpa [Deque.Empty, Deque.Size] using hE
  refine ⟨At_of_not_lt (by omega), At_of_not_lt (by omega), PopFront_empty h0, ?_⟩
  unfold Deque.PopBack
  rw [if_pos hE]

/-- C15 (witness): the theorem on `New(1)`, read at `pos = -1`. -/
theorem C15_boundary_reads_and_pops_witness :
    ((-1 : Int) < 0 ∨ (-1 : Int) ≥ newOneDeque.Size) ∧ newOneDeque.Empty = true ∧
    newOneDeque.At (-1) = some none ∧
    newOneDeque.Front = some none ∧ newOneDeque.Back = some none ∧
    newOneDeque.PopFront = some (newOneDeque, none) ∧
    newOneDeque.PopBack = some (newOneDeque, none) :=
  ⟨by decide, by decide,
    (C15_boundary_reads_and_pops newOneDeque).1 (-1) (by decide),
    (C15_boundary_reads_and_pops newOneDeque).2 (by decide)⟩

/-- C16: for every initial capacity `c ≥ 0`, on `New(c)` the calls `PushBack(1);
PushBack(2); PushBack(3)` give `[1, 2, 3]`; `PushFront(0)` gives `[0, 1, 2, 3]`;
`Insert(2, 99)` returns `nil` and gives `[0, 1, 99, 2, 3]`; `EraseRange(1, 3)`
returns `nil` and gives `[0, 2, 3]`; `PopBack()` returns 3 and leaves `[0, 2]`. -/
theorem C16_concrete_scenario (c : Int) (hc : 0 ≤ c) :
    ∃ d3 d4 d5 d6 d7 : Deque Nat,
      runNew c opsThreePushes = some d3 ∧ d3.Models [some 1, some 2, some 3] ∧
      d3.PushFront (some 0) = some d4 ∧ d4.Models [some 0, some 1, some 2, some 3] ∧
      d4.Insert 2 (some 99) = some (d5, GoError.nil) ∧
      d5.Models [some 0, some 1, some 99, some 2, some 3] ∧
      d5.EraseRange 1 3 = some (d6, GoError.nil) ∧ d6.Models [some 0, some 2, some 3] ∧
      d6.PopBack = some (d7, some 3) ∧ d7.Models [some 0, some 2] := by
  obtain ⟨d0, h0, hw0, he0, hc0, hm0, hs0⟩ := New_spec (α := Nat) hc
  obtain ⟨d3, h3, hw3, he3, hc3, hm3, hs3⟩ :=
    push_run opsThreePushes (by decide) d0 [] hw0 he0 hc0 hm0
  have hinv3 : d3.Inv := Inv_of_wf_endNear hw3 (he3.endNear (by omega))
  obtain ⟨d4, h4, hinv4, hs4, hv4, hj4⟩ := PushFront_spec hinv3 (some 0)
  obtain ⟨he4, hc4, -, -⟩ := PushFront_endOk hw3 (Or.inl he3) h4
  have hm4 := Deque.Models.pushFront hm3 hv4 hs4 hj4
  have hsz4 : d4.size = 4 := hm4.1
  obtain ⟨d5, h5, hw5, he5, hs5, hv5, hlo5, hhi5⟩ :=
    Insert_spec hinv4.wf (by have := hinv4.1; omega) he4 (show (0 : Int) ≤ 2 by omega)
      (by omega) (some 99)
  have hm5 := Deque.Models.insert hm4 (show (0 : Int) ≤ 2 by omega) (by omega) hs5 hv5
    hlo5 hhi5
  have hsz5 : d5.size = 5 := by omega
  have hc5 : 0 < d5.Capacity := by have := hw5.2.1; omega
  obtain ⟨d6, h6, hw6, hs6, hen6, hlo6, hhi6⟩ :=
    EraseRange_spec hw5 (f := 1) (l := 3) (by omega) (by omega) (by omega)
  have hm6 := Deque.Models.eraseRange hm5 (f := 1) (t := 3) (by omega) (by omega) (by omega)
    hs6 hlo6 hhi6
  have hsz6 : d6.size = 3 := by omega
  obtain ⟨d7, v, h7, hb7, hw7, hs7, -, hj7⟩ :=
    PopBack_spec hw6 (hen6 (he5.endNear hc5)) (by omega)
  obtain ⟨hv, hm7⟩ := Deque.Models.popBack hm6 (by omega) hb7 hs7 hj7
  have hv3 : v = some 3 := by
    have : (some (some 3) : Option (Option Nat)) = some v := hv
    exact (Option.some.inj this).symm
  subst hv3
  refine ⟨d3, d4, d5, d6, d7, ?_, hm3, h4, hm4, h5, hm5, h6, hm6, h7, hm7⟩
  simp only [runNew, h0, Option.some_bind]
  exact h3

/-- C16 (witness): the scenario at initial capacity 0. -/
theorem C16_concrete_scenario_witness :
    (0 : Int) ≤ 0 ∧
    ∃ d3 d4 d5 d6 d7 : Deque Nat,
      runNew 0 opsThreePushes = some d3 ∧ d3.Models [some 1, some 2, some 3] ∧
      d3.PushFront (some 0) = some d4 ∧ d4.Models [some 0, some 1, some 2, some 3] ∧
      d4.Insert 2 (some 99) = some (d5, GoError.nil) ∧
      d5.Models [some 0, some 1, some 99, some 2, some 3] ∧
      d5.EraseRange 1 3 = some (d6, GoError.nil) ∧ d6.Models [some 0, some 2, some 3] ∧
      d6.PopBack = some (d7, some 3) ∧ d7.Models [some 0, some 2] :=
  ⟨by decide, C16_concrete_scenario 0 (by decide)⟩

/-- C17 (fails on the code): two completed runs on capacities of at least 1 break
the relation `end = (begin + size) mod capacity`.
`New(4); PushBack(1); PushBack(2); PushBack(3); PopBack()` ends with `begin = 0`,
`size = 2`, capacity 4 and `end = 3`, where `(begin + size) mod capacity` is 2:
`PopBack` did not store the new `end`.
`New(5); PushBack(1); PushBack(2); PushBack(3); PopFront()` ends with capacity 2 and
`end = 2`, so `end < capacity` fails and `(begin + size) mod capacity` is 0:
`shrinkIfNeeded` stored `end = size` without reducing it. -/
theorem C17_end_invariant_broken :
    (runNew 4 opsPopBack = some staleEndDeque ∧
      1 ≤ staleEndDeque.Capacity ∧
      staleEndDeque.end_ = 3 ∧
      (staleEndDeque.begin + staleEndDeque.size) % staleEndDeque.Capacity = 2) ∧
    (runNew 5 [Op.PushBack (some 1), Op.PushBack (some 2), Op.PushBack (some 3), Op.PopFront]
        = some endAtCapacityDeque ∧
      1 ≤ endAtCapacityDeque.Capacity ∧
      ¬ endAtCapacityDeque.end_ < endAtCapacityDeque.Capacity ∧
      endAtCapacityDeque.end_ = 2 ∧
      (endAtCapacityDeque.begin + endAtCapacityDeque.size) % endAtCapacityDeque.Capacity
        = 0) := by
  decide

/-- C18: on every deque with `capacity ≥ 1`, `0 ≤ begin < capacity`,
`size ≤ capacity` and `end = (begin + size) mod capacity`, for every
`0 ≤ pos ≤ size` and every value `x`, `Insert(pos, x)` returns `nil`, `Size()` grows
by one, `At(pos)` is `x`, `At(i)` is unchanged for `i < pos`, and `At(i)` is the old
`At(i-1)` for `pos < i ≤` old size; the delegated cases, both shifting branches
and the growth of the storage are covered. -/
theorem C18_Insert_places_value (d : Deque α) (pos : Int) (x : Option α)
    (hcap : 1 ≤ d.Capacity) (hb0 : 0 ≤ d.begin) (hb1 : d.begin < d.Capacity)
    (hs : d.size ≤ d.Capacity) (he : d.end_ = (d.begin + d.size) % d.Capacity)
    (hp0 : 0 ≤ pos) (hp1 : pos ≤ d.size) :
    ∃ d', d.Insert pos x = some (d', GoError.nil) ∧ d'.Size = d.Size + 1 ∧
      d'.At pos = some x ∧
      (∀ i, 0 ≤ i → i < pos → d'.At i = d.At i) ∧
      (∀ i, pos < i → i ≤ d.Size → d'.At i = d.At (i - 1)) := by
  have hwf : d.Wf := ⟨by omega, hs, hb0, Or.inl hb1⟩
  obtain ⟨d', h1, -, -, h4, h5, h6, h7⟩ := Insert_spec hwf hcap he hp0 hp1 x
  exact ⟨d', h1, h4, h5, h6, h7⟩

/-- C18 (witness): the theorem on the full, wrapped deque `[1, 2, 3]`, inserting 9
at position 1. -/
theorem C18_Insert_places_value_witness :
    ((1 : Int) ≤ wrappedDeque.Capacity ∧ 0 ≤ wrappedDeque.begin ∧
      wrappedDeque.begin < wrappedDeque.Capacity ∧ wrappedDeque.size ≤ wrappedDeque.Capacity ∧
      wrappedDeque.end_ = (wrappedDeque.begin + wrappedDeque.size) % wrappedDeque.Capacity ∧
      (0 : Int) ≤ 1 ∧ 1 ≤ wrappedDeque.size) ∧
    ∃ d', wrappedDeque.Insert 1 (some 9) = some (d', GoError.nil) ∧
      d'.Size = wrappedDeque.Size + 1 ∧ d'.At 1 = some (some 9) ∧
      (∀ i, 0 ≤ i → i < 1 → d'.At i = wrappedDeque.At i) ∧
      (∀ i, 1 < i → i ≤ wrappedDeque.Size → d'.At i = wrappedDeque.At (i - 1)) :=
  ⟨by decide,
    C18_Insert_places_value wrappedDeque 1 (some 9) (by decide) (by decide) (by decide)
      (by decide) (by decide) (by decide) (by decide)⟩

/-- C19 (counterexample): the deque left by `New(1); PushBack(7); PopBack()` has
size 0 and capacity 0; `PushBack(7)` grows the capacity to 1 and the `PopBack()`
that follows brings it back to 0. -/
theorem C19_grow_then_shrink_at_capacity_zero :
    runNew 1 [Op.PushBack (some 7), Op.PopBack] = some emptiedDeque ∧
    emptiedDeque.size = emptiedDeque.Capacity ∧
    (emptiedDeque.PushBack (some 7)).map Deque.Capacity = some 1 ∧
    ((emptiedDeque.PushBack (some 7)).bind Deque.PopBack).map (fun r => r.1.Capacity)
      = some 0 := by
  decide

/-- C19 (amended): on every reachable deque with `size = capacity ≥ 1`, a
`PushBack` or `PushFront` returns and doubles the capacity, and the `PopBack` or
`PopFront` issued immediately afterwards returns and leaves the capacity as the
push made it. -/
theorem C19_no_oscillation (d : Deque α) (hr : Reachable d)
    (hfull : d.size = d.Capacity) (hcap : 1 ≤ d.Capacity)
    (push pop : Op α) (hpush : push.isPush = true) (hpop : pop.isPop = true) :
    ∃ d1 d2, d.step push = some d1 ∧ d1.Capacity = 2 * d.Capacity ∧
      d1.step pop = some d2 ∧ d2.Capacity = d1.Capacity := by
  have hinv := hr.inv
  have hwf := hinv.wf
  have key : ∃ d1, d.step push = some d1 ∧ d1.Capacity = 2 * d.Capacity ∧
      d1.Wf ∧ d1.EndOk ∧ d1.size = d.size + 1 := by
    cases push with
    | PushBack v =>
      obtain ⟨d1, h1, hw1, he1, hs1, -, -, hyes, -, -⟩ := PushBack_spec hwf (Or.inr hfull) v
      refine ⟨d1, h1, ?_, hw1, he1, hs1⟩
      rw [hyes hfull, if_neg (by omega)]
      omega
    | PushFront v =>
      obtain ⟨d1, h1, hinv1, hs1, -, -⟩ := PushFront_spec hinv v
      obtain ⟨he1, -, -, hyes⟩ := PushFront_endOk hwf (Or.inr hfull) h1
      refine ⟨d1, h1, ?_, hinv1.wf, he1, hs1⟩
      rw [hyes hfull, if_neg (by omega)]
      omega
    | PopBack => simp [Op.isPush] at hpush
    | PopFront => simp [Op.isPush] at hpush
    | Insert pos v => simp [Op.isPush] at hpush
    | Erase pos => simp [Op.isPush] at hpush
    | EraseRange f l => simp [Op.isPush] at hpush
  obtain ⟨d1, h1, hc1, hw1, he1, hs1⟩ := key
  have hc1' : 0 < d1.Capacity := by omega
  have hthr : ¬ truncMul12 ((d1.size - 1) * 2) < d1.Capacity := by
    have := truncMul12_lower (n := (d1.size - 1) * 2) (by omega)
    omega
  refine ⟨d1, ?_⟩
  cases pop with
  | PopBack =>
    obtain ⟨d2, v, h2, -, -, -, hcap2, -⟩ :=
      PopBack_spec hw1 (he1.endNear hc1') (by omega)
    exact ⟨d2, h1, hc1, by simp only [Deque.step, h2, Option.map_some'], hcap2 hthr⟩
  | PopFront =>
    have hinv1 : d1.Inv := Inv_of_wf_endNear hw1 (he1.endNear hc1')
    obtain ⟨d2, v, h2, -⟩ := PopFront_spec hinv1 (by omega)
    exact ⟨d2, h1, hc1, by simp only [Deque.step, h2, Option.map_some'],
      PopFront_capacity hinv1 (by omega) h2 hthr⟩
  | PushBack v => simp [Op.isPop] at hpop
  | PushFront v => simp [Op.isPop] at hpop
  | Insert pos v => simp [Op.isPop] at hpop
  | Erase pos => simp [Op.isPop] at hpop
  | EraseRange f l => simp [Op.isPop] at hpop

/-- C19 (witness): the amended claim on the full deque left by
`New(2); PushBack(1); PushBack(2)`, with `PushFront(9)` followed by `PopBack()`. -/
theorem C19_no_oscillation_witness :
    (Reachable fullDeque ∧ fullDeque.size = fullDeque.Capacity ∧
      1 ≤ fullDeque.Capacity ∧ (Op.PushFront (some 9) : Op Nat).isPush = true ∧
      (Op.PopBack : Op Nat).isPop = true) ∧
    ∃ d1 d2, fullDeque.step (Op.PushFront (some 9)) = some d1 ∧
      d1.Capacity = 2 * fullDeque.Capacity ∧
      d1.step Op.PopBack = some d2 ∧ d2.Capacity = d1.Capacity :=
  ⟨⟨⟨2, [Op.PushBack (some 1), Op.PushBack (some 2)], by decide, by decide⟩,
      by decide, by decide, by decide, by decide⟩,
    C19_no_oscillation fullDeque
      ⟨2, [Op.PushBack (some 1), Op.PushBack (some 2)], by decide, by decide⟩
      (by decide) (by decide) (Op.PushFront (some 9)) Op.PopBack (by decide) (by decide)⟩

/-- C20: on every deque with `0 ≤ begin < capacity` (or with capacity 0 and size
0), `expandIfNeeded` leaves the deque as it is when `size ≠ capacity`; when
`size = capacity` it returns a deque of capacity `size * 2` (1 when that is 0)
with `begin = 0`, `end = size`, the same size and the same `At(i)` for every
`0 ≤ i < size`, the old element `i` sitting in slot `i`. -/
theorem C20_expand_relinearizes (d : Deque α)
    (h : (0 ≤ d.begin ∧ d.begin < d.Capacity) ∨ (d.Capacity = 0 ∧ d.size = 0)) :
    (d.size ≠ d.Capacity → d.expandIfNeeded = some d) ∧
    (d.size = d.Capacity → ∃ d', d.expandIfNeeded = some d' ∧
      d'.Capacity = (if d.size * 2 = 0 then 1 else d.size * 2) ∧
      d'.begin = 0 ∧ d'.end_ = d.size ∧ d'.size = d.size ∧
      ∀ i, 0 ≤ i → i < d.size → d'.At i = d.At i ∧ getSlot d'.data i = d.At i) := by
  refine ⟨fun hne => by unfold Deque.expandIfNeeded; rw [if_neg hne], ?_⟩
  intro hfull
  rcases h with ⟨hb0, hb1⟩ | ⟨hc, hs⟩
  · have hwf : d.Wf := ⟨by rw [hfull]; unfold Deque.Capacity; omega, by omega, hb0, Or.inl hb1⟩
    obtain ⟨d', h1, -, h3, -, -, h6, -, h8⟩ := expand_wf hwf
    obtain ⟨a, b, c, e⟩ := h8 hfull
    exact ⟨d', h1, a, b, c, h3, fun i hi0 hi1 => ⟨h6 i, e i hi0 hi1⟩⟩
  · refine ⟨⟨[none], 0, 0, 0⟩, ?_, ?_, rfl, hs.symm, hs.symm, ?_⟩
    · unfold Deque.expandIfNeeded
      rw [if_pos hfull]
      simp [hs, makeSlice, Deque.copyLoop]
    · simp [hs, Deque.Capacity]
    · intro i hi0 hi1
      omega

/-- C20 (witness): the theorem on the full, wrapped deque `[1, 2, 3]`. -/
theorem C20_expand_relinearizes_witness :
    ((0 ≤ wrappedDeque.begin ∧ wrappedDeque.begin < wrappedDeque.Capacity) ∨
      (wrappedDeque.Capacity = 0 ∧ wrappedDeque.size = 0)) ∧
    (wrappedDeque.size ≠ wrappedDeque.Capacity →
      wrappedDeque.expandIfNeeded = some wrappedDeque) ∧
    (wrappedDeque.size = wrappedDeque.Capacity → ∃ d', wrappedDeque.expandIfNeeded = some d' ∧
      d'.Capacity = (if wrappedDeque.size * 2 = 0 then 1 else wrappedDeque.size * 2) ∧
      d'.begin = 0 ∧ d'.end_ = wrappedDeque.size ∧ d'.size = wrappedDeque.size ∧
      ∀ i, 0 ≤ i → i < wrappedDeque.size →
        d'.At i = wrappedDeque.At i ∧ getSlot d'.data i = wrappedDeque.At i) :=
  ⟨by decide, C20_expand_relinearizes wrappedDeque (by decide)⟩

end GoDeque
